import Mathlib

/-!
Shallow embedding of the summary key-phrase placement and span-normalization
engine of `src/backend/src/services/summary.service.ts` (MemoCards).

Source text is modelled as `List Char`; all positions are code-unit offsets
(`Nat`), matching the JavaScript string indexing used by the service (our
concrete inputs stay in the BMP, so code units and `Char`s coincide).
JavaScript out-of-bounds reads (`text[i]` giving `undefined`) are modelled
with `List.get?` / bounds tests, and JS `String.prototype.slice` / `trim` /
`split` are given faithful list-level counterparts.  The external model call
(`chatJson` composed with prompt construction and `coerceAIResponse`) is an
opaque collaborator: it is modelled as an oracle mapping the language code and
the chunk text to either a typed `AIResponse` or an error (any exception the
real call or the coercion raises).  `console.*` logging is dropped.
-/

namespace MemoCards

/-! ## JavaScript string primitives -/

/-- JS `\s` / `String.prototype.trim` whitespace class (the code points
tested by `/\s/`). -/
def isWsChar (c : Char) : Bool :=
  c = ' ' || c = '\t' || c = '\n' || c = '\r' ||
  c = '\x0b' || c = '\x0c' || c = ' ' || c = ' ' ||
  (0x2000 ≤ c.toNat && c.toNat ≤ 0x200A) ||
  c = ' ' || c = ' ' || c = ' ' || c = ' ' ||
  c = '　' || c = '﻿'

/-- JS `s.trim()`. -/
def jsTrim (s : List Char) : List Char :=
  ((s.dropWhile isWsChar).reverse.dropWhile isWsChar).reverse

/-- JS `s.slice(a, b)` for non-negative indices: the substring `[a, b)`
clipped to the string. -/
def slice (s : List Char) (a b : Nat) : List Char :=
  (s.take b).drop a

/-- Strict-accumulator tail of `jsLength` (matching on the accumulator keeps
it a literal at every step). -/
def lenGo : List Char → Nat → Nat
  | [], acc => acc
  | _ :: t, 0 => lenGo t 1
  | _ :: t, acc + 1 => lenGo t (acc + 2)

/-- JS `s.length` (an O(1) field in JS; equal to `List.length`, see
`jsLength_eq`). -/
def jsLength (s : List Char) : Nat := lenGo s 0

/-- JS `s.split(/\s+/)` on a string without leading whitespace: the maximal
runs of non-whitespace characters (accumulator holds the current run,
reversed). -/
def splitWsAux : List Char → List Char → List (List Char)
  | [], w => if w.isEmpty then [] else [w.reverse]
  | c :: rest, w =>
    if isWsChar c then
      if w.isEmpty then splitWsAux rest [] else w.reverse :: splitWsAux rest []
    else splitWsAux rest (c :: w)

def splitWs (l : List Char) : List (List Char) :=
  splitWsAux l []

/-- First index `≥ i₀` at which `pat` occurs in `t` (JS `indexOf` /
successive `RegExp.exec` positions of an escaped literal). -/
def indexOfAux (pat : List Char) : List Char → Nat → Option Nat
  | rem, i =>
    if pat.isPrefixOf rem then some i
    else match rem with
      | [] => none
      | _ :: rs => indexOfAux pat rs (i + 1)

def indexOfFrom (t pat : List Char) (i₀ : Nat) : Option Nat :=
  indexOfAux pat (t.drop i₀) i₀

/-! ## Data model -/

inductive Importance where
  | high | medium | low
deriving DecidableEq, Repr

inductive Category where
  | definition | fact | concept | exampleC | warning
deriving DecidableEq, Repr

structure KeyPoint where
  text : List Char
  startPos : Nat
  endPos : Nat
  importance : Importance
  category : Category
deriving DecidableEq, Repr

structure SummaryResult where
  summary : List Char
  keyPoints : List KeyPoint
deriving DecidableEq, Repr

inductive LanguageCode where
  | auto | en | fr
deriving DecidableEq, Repr

inductive EffectiveLang where
  | en | fr
deriving DecidableEq, Repr

/-- Untrusted key-phrase record from the model.  `startPos`/`endPos` are the
optional reported offsets (`Number.isInteger` holds exactly on the `some`
values; they may be negative, hence `Int`). -/
structure AIKeyPhrase where
  text : List Char
  startPos : Option Int
  endPos : Option Int
  importance : Importance
  category : Category
deriving DecidableEq, Repr

structure AIResponse where
  summary : List Char
  keyPhrases : List AIKeyPhrase
deriving DecidableEq, Repr

/-- The external collaborator: prompt construction + `chatJson` +
`coerceAIResponse`, collapsed into one fallible call keyed by the prompt
language and the (chunk) text. -/
def Oracle := LanguageCode → List Char → Except (List Char) AIResponse

/-! ## Tunables -/

def CHARS_PER_TOKEN : Nat := 4
def MAX_TOKENS : Nat := 3000
def CHUNK_OVERLAP : Nat := 200
def MIN_KP : Nat := 8
def MAX_KP : Nat := 15
def MIN_PHRASE_LEN : Nat := 10
def MAX_PHRASE_LEN : Nat := 220

structure I18nStrings where
  mainPoints : List Char
  conclusion : List Char
  part : List Char

def i18nStrings : EffectiveLang → I18nStrings
  | .en => ⟨"## Main Points".toList, "## Conclusion".toList, "Part".toList⟩
  | .fr => ⟨"## Points Principaux".toList, "## Conclusion".toList, "Partie".toList⟩

/-! ## Spans and character classes -/

/-- `{start, end}` (the source's `end` field is `stop` here: `end` is a Lean
keyword). -/
structure Span where
  start : Nat
  stop : Nat
deriving DecidableEq, Repr

def overlaps (a b : Span) : Bool :=
  decide (a.start < b.stop) && decide (b.start < a.stop)

def isSentenceTerminator (c : Char) : Bool :=
  -- the source also tests `"…".normalize()`, which is the same character
  c = '.' || c = '!' || c = '?' || c = '…'

def isClauseTerminator (c : Char) : Bool :=
  c = ';' || c = ':' || c = ',' || c = '—' || c = '–'

def isClosingQuoteOrParen (c : Char) : Bool :=
  c = '"' || c = '”' || c = '»' || c = ')' || c = ']' || c = '’' || c = '\''

def isClosingQuoteOrSpace (c : Char) : Bool :=
  isClosingQuoteOrParen c || c = ' ' || c = '\t'

def isOpeningQuoteOrParen (c : Char) : Bool :=
  c = '"' || c = '“' || c = '«' || c = '(' || c = '[' || c = '‘'

/-! ## Boundary scanner -/

/-- Length of the leading run of closing-quote/paren characters (the loop
`while (j < text.length && isClosingQuoteOrParen(text[j])) j++`, expressed on
the suffix `t.drop j`). -/
def closingParenRunLen : List Char → Nat
  | [] => 0
  | c :: r => if isClosingQuoteOrParen c then closingParenRunLen r + 1 else 0

/-- Length of the leading run of closing-quote/space characters. -/
def closingOrSpaceRunLen : List Char → Nat
  | [] => 0
  | c :: r => if isClosingQuoteOrSpace c then closingOrSpaceRunLen r + 1 else 0

def skipClosingParen (t : List Char) (j : Nat) : Nat :=
  j + closingParenRunLen (t.drop j)

def skipClosingOrSpace (t : List Char) (j : Nat) : Nat :=
  j + closingOrSpaceRunLen (t.drop j)

/-- The backward scan of `findLeftBoundary`; the argument is the JS loop
variable `i` (so the character looked at is `t[i-1]`). -/
def findLeftBoundaryAux (t : List Char) : Nat → Nat
  | 0 => 0
  | m + 1 =>
    match t.get? m with
    | some c =>
      if isSentenceTerminator c then skipClosingOrSpace t (m + 1)
      else if c = '\n' && m ≥ 1 && t.get? (m - 1) = some '\n' then m + 1
      else findLeftBoundaryAux t m
    | none => findLeftBoundaryAux t m

def findLeftBoundary (t : List Char) (index : Nat) : Nat :=
  findLeftBoundaryAux t index

/-- The forward scan of `findRightBoundary`: `l` is the suffix `t.drop i` and
`i` the JS loop variable (with `index` the entry point, for the 40-character
clause test).  Running off the end returns `text.length`. -/
def frbGo (t : List Char) (index : Nat) : List Char → Nat → Nat
  | [], _ => jsLength t
  | c :: rest, i =>
    if isSentenceTerminator c then skipClosingParen t (i + 1)
    else if isClauseTerminator c && i - index ≥ 40 then skipClosingParen t (i + 1)
    else if c = '\n' && rest.head? = some '\n' then i
    else frbGo t index rest (i + 1)

def findRightBoundary (t : List Char) (index : Nat) : Nat :=
  frbGo t index (t.drop index) index

/-! ## trimSoft -/

/-- `while (start < end && /\s/.test(text[start])) start++` (the fuel is the
exact remaining room `end - start`). -/
def trimLeftWsGo (t : List Char) : Nat → Nat → Nat
  | 0, start => start
  | fuel + 1, start =>
    match t.get? start with
    | some c => if isWsChar c then trimLeftWsGo t fuel (start + 1) else start
    | none => start

def trimLeftWsLoop (t : List Char) (stop start : Nat) : Nat :=
  trimLeftWsGo t (stop - start) start

/-- `while (start < end && isOpeningQuoteOrParen(text[start])) start++`. -/
def trimLeftOpenGo (t : List Char) : Nat → Nat → Nat
  | 0, start => start
  | fuel + 1, start =>
    match t.get? start with
    | some c => if isOpeningQuoteOrParen c then trimLeftOpenGo t fuel (start + 1) else start
    | none => start

def trimLeftOpenLoop (t : List Char) (stop start : Nat) : Nat :=
  trimLeftOpenGo t (stop - start) start

/-- `while (end > start && /\s/.test(text[end - 1])) end--`. -/
def trimRightWsGo (t : List Char) : Nat → Nat → Nat
  | 0, stop => stop
  | fuel + 1, stop =>
    match t.get? (stop - 1) with
    | some c => if isWsChar c then trimRightWsGo t fuel (stop - 1) else stop
    | none => stop

def trimRightWsLoop (t : List Char) (start stop : Nat) : Nat :=
  trimRightWsGo t (stop - start) stop

/-- `while (end > start && isClosingQuoteOrParen(text[end - 1])) end--`. -/
def trimRightCloseGo (t : List Char) : Nat → Nat → Nat
  | 0, stop => stop
  | fuel + 1, stop =>
    match t.get? (stop - 1) with
    | some c => if isClosingQuoteOrParen c then trimRightCloseGo t fuel (stop - 1) else stop
    | none => stop

def trimRightCloseLoop (t : List Char) (start stop : Nat) : Nat :=
  trimRightCloseGo t (stop - start) stop

/-- `trimSoft`: both left loops are bounded by the incoming `end`, both right
loops by the updated `start` (as in the source; the source's final
`isSentenceTerminator` conditional has no effect and is omitted). -/
def trimSoft (t : List Char) (start stop : Nat) : Span :=
  let s1 := trimLeftWsLoop t stop start
  let s2 := trimLeftOpenLoop t stop s1
  let e1 := trimRightWsLoop t s2 stop
  let e2 := trimRightCloseLoop t s2 e1
  ⟨s2, e2⟩

/-- Expand a span outward to sentence/clause boundaries, then soft-trim. -/
def normalizeSpanToSentenceOrClause (t : List Char) (span : Span) : Span :=
  let start := findLeftBoundary t span.start
  let stop := findRightBoundary t span.stop
  trimSoft t start stop

/-! ## Span clamper -/

/-- `for (let i = start; i < limit; i++) ...` of `findFirstTerminatorAfter`
(the fuel is the exact room `limit - start`). -/
def fftGo (t : List Char) (limit : Nat) : Nat → Nat → Nat
  | 0, _ => limit
  | fuel + 1, i =>
    match t.get? i with
    | some c =>
      if isSentenceTerminator c then skipClosingParen t (i + 1)
      else fftGo t limit fuel (i + 1)
    | none => fftGo t limit fuel (i + 1)

def findFirstTerminatorAfter (t : List Char) (start maxLen : Nat) : Nat :=
  let limit := min (jsLength t) (start + maxLen)
  fftGo t limit (limit - start) start

def clampSpanLength (t : List Char) (span : Span) (minLen maxLen : Nat) : Span :=
  let start := span.start
  let stop := span.stop
  let len := stop - start
  if len < minLen then
    let newEnd := findRightBoundary t stop
    if minLen ≤ newEnd - start && newEnd - start ≤ maxLen then
      trimSoft t start newEnd
    else
      let newStart := findLeftBoundary t start
      if minLen ≤ stop - newStart && stop - newStart ≤ maxLen then
        trimSoft t newStart stop
      else trimSoft t start stop
  else if len > maxLen then
    let cut := findFirstTerminatorAfter t start maxLen
    if cut > start then trimSoft t start cut else trimSoft t start stop
  else trimSoft t start stop

/-! ## Sentence splitter -/

/-- The character-wise scan of `splitIntoSentences`.  The fuel is a bound on
the number of loop iterations; each step advances the index by at least one,
so `t.length + 1` units always suffice. -/
def sisAux (t : List Char) : Nat → Nat → List Char → List (List Char) → List (List Char)
  | 0, _, buf, acc => if (jsTrim buf).isEmpty then acc else acc ++ [jsTrim buf]
  | fuel + 1, i, buf, acc =>
    match t.get? i with
    | none => if (jsTrim buf).isEmpty then acc else acc ++ [jsTrim buf]
    | some c =>
      let buf1 := buf ++ [c]
      if isSentenceTerminator c then
        -- absorb immediately following closing quotes/parens, then emit
        let j := skipClosingParen t (i + 1)
        let buf2 := buf1 ++ slice t (i + 1) j
        sisAux t fuel j [] (acc ++ [jsTrim buf2])
      else if c = '\n' && t.get? (i + 1) = some '\n' then
        sisAux t fuel (i + 1) [] (if (jsTrim buf1).isEmpty then acc else acc ++ [jsTrim buf1])
      else sisAux t fuel (i + 1) buf1 acc

def splitIntoSentences (t : List Char) : List (List Char) :=
  (sisAux t (jsLength t + 1) 0 [] []).filter (fun s => jsLength s > 10)

/-! ## Paragraph split (`text.split(/\n\s*\n/)`) -/

/-- Length of the leading `\s` run. -/
def wsRunLen : List Char → Nat
  | [] => 0
  | c :: r => if isWsChar c then wsRunLen r + 1 else 0

/-- End of the maximal `\s` run starting at `j`. -/
def wsRunEnd (t : List Char) (j : Nat) : Nat :=
  j + wsRunLen (t.drop j)

/-- Largest `q` with `lo ≤ q < hi` and `t[q] = '\n'` (fuel is the room
`hi - lo`). -/
def lnbGo (t : List Char) : Nat → Nat → Option Nat
  | 0, _ => none
  | fuel + 1, hi =>
    match t.get? (hi - 1) with
    | some c => if c = '\n' then some (hi - 1) else lnbGo t fuel (hi - 1)
    | none => lnbGo t fuel (hi - 1)

def lastNewlineBefore (t : List Char) (lo : Nat) (hi : Nat) : Option Nat :=
  lnbGo t (hi - lo) hi

/-- If the regex `\n\s*\n` (greedy `\s*`, backtracking into the final `\n`)
matches at position `i`, the exclusive end of the match. -/
def blankLineMatch (t : List Char) (i : Nat) : Option Nat :=
  if t.get? i = some '\n' then
    match lastNewlineBefore t (i + 1) (wsRunEnd t (i + 1)) with
    | some q => some (q + 1)
    | none => none
  else none

def splitBlankAux (t : List Char) : Nat → Nat → Nat → List (List Char) → List (List Char)
  | 0, start, _, acc => acc ++ [t.drop start]
  | fuel + 1, start, i, acc =>
    match t.get? i with
    | some _ =>
      match blankLineMatch t i with
      | some e => splitBlankAux t fuel e e (acc ++ [slice t start i])
      | none => splitBlankAux t fuel start (i + 1) acc
    | none => acc ++ [t.drop start]

def splitOnBlankLines (t : List Char) : List (List Char) :=
  splitBlankAux t (jsLength t + 1) 0 0 []

/-! ## Quote extraction (`/"([^"]{10,200})"/g` and curly/guillemet pairs) -/

/-- Length of the leading run of characters different from `close` (the
`[^X]*` run; negated classes match newlines in JS). -/
def notCharRunLen (close : Char) : List Char → Nat
  | [] => 0
  | c :: r => if c = close then 0 else notCharRunLen close r + 1

/-- End of the maximal run of characters different from `close` starting at
`j`. -/
def runEndNotChar (t : List Char) (close : Char) (j : Nat) : Nat :=
  j + notCharRunLen close (t.drop j)

/-- All matches (including the delimiters) of `open [^close]{10,200} close`,
scanning left to right and resuming after each match. -/
def quoteMatchesAux (t : List Char) (openC closeC : Char) : Nat → Nat → List (List Char) → List (List Char)
  | 0, _, acc => acc
  | fuel + 1, i, acc =>
    match t.get? i with
    | some c =>
      if c = openC then
        let rE := runEndNotChar t closeC (i + 1)
        let len := rE - (i + 1)
        if 10 ≤ len && len ≤ 200 && t.get? rE = some closeC then
          quoteMatchesAux t openC closeC fuel (rE + 1) (acc ++ [slice t i (rE + 1)])
        else quoteMatchesAux t openC closeC fuel (i + 1) acc
      else quoteMatchesAux t openC closeC fuel (i + 1) acc
    | none => acc

def quoteMatches (t : List Char) (openC closeC : Char) : List (List Char) :=
  quoteMatchesAux t openC closeC (jsLength t + 1) 0 []

/-- `q.replace(/^["“«]|["”»]$/g, "")`. -/
def stripQuoteEnds (q : List Char) : List Char :=
  let q1 := match q with
    | c :: rest => if c = '"' || c = '“' || c = '«' then rest else q
    | [] => q
  match q1.getLast? with
  | some c => if c = '"' || c = '”' || c = '»' then q1.dropLast else q1
  | none => q1

def quoteCandidates (t : List Char) : List (List Char) :=
  ((quoteMatches t '"' '"' ++ quoteMatches t '“' '”' ++ quoteMatches t '«' '»').map
      stripQuoteEnds).filter (fun q => 20 ≤ jsLength q && jsLength q ≤ 200)

/-! ## Deduplication and sorting -/

/-- The Map key `` `${kp.text}@@${kp.startPos}` ``. -/
def dedupKey (kp : KeyPoint) : List Char :=
  kp.text ++ ("@@".toList) ++ (Nat.repr kp.startPos).toList

/-- Keep the first key point for each key, in insertion order (the JS `Map`;
`seen` is the set of keys already inserted). -/
def dedupFirstsAux : List KeyPoint → List (List Char) → List KeyPoint
  | [], _ => []
  | kp :: rest, seen =>
    if seen.contains (dedupKey kp) then dedupFirstsAux rest seen
    else kp :: dedupFirstsAux rest (dedupKey kp :: seen)

/-- Stable insertion of `kp` after every element whose `startPos` is `≤`
(matching the stable JS `sort((a, b) => a.startPos - b.startPos)`). -/
def insertByStart (kp : KeyPoint) : List KeyPoint → List KeyPoint
  | [] => [kp]
  | x :: xs => if x.startPos ≤ kp.startPos then x :: insertByStart kp xs else kp :: x :: xs

def sortByStart (l : List KeyPoint) : List KeyPoint :=
  l.foldl (fun acc kp => insertByStart kp acc) []

def deduplicateKeyPoints (l : List KeyPoint) : List KeyPoint :=
  sortByStart (dedupFirstsAux l [])

/-! ## Fallback extraction -/

structure FBState where
  keyPoints : List KeyPoint
  taken : List Span
deriving DecidableEq, Repr

/-- `tryAdd`: the template's `text` field is always overwritten with the
trimmed slice, so only importance/category are used from it. -/
def tryAdd (t : List Char) (st : FBState) (start stop : Nat) (imp : Importance) (cat : Category) :
    FBState × Bool :=
  let span := clampSpanLength t ⟨start, stop⟩ MIN_PHRASE_LEN MAX_PHRASE_LEN
  if st.taken.any (fun tk => overlaps tk span) then (st, false)
  else
    let txt := jsTrim (slice t span.start span.stop)
    if jsLength txt ≥ MIN_PHRASE_LEN then
      (⟨st.keyPoints ++ [⟨txt, span.start, span.stop, imp, cat⟩], st.taken ++ [span]⟩, true)
    else (st, false)

/-- Strategy 1: complete sentences of length `[30, 180]`, stopping once
`min(MIN_KP, maxPoints)` points have been collected. -/
def stage1Loop (t : List Char) (maxPoints : Nat) : List (List Char) → FBState → FBState
  | [], st => st
  | sSent :: rest, st =>
    if 30 ≤ jsLength sSent && jsLength sSent ≤ 180 then
      match indexOfFrom t sSent 0 with
      | some idx =>
        let r := tryAdd t st idx (idx + jsLength sSent) .high .fact
        if r.2 && decide (r.1.keyPoints.length ≥ min MIN_KP maxPoints) then r.1
        else stage1Loop t maxPoints rest r.1
      | none => stage1Loop t maxPoints rest st
    else stage1Loop t maxPoints rest st

/-- Strategy 2: quoted substrings. -/
def stage2Loop (t : List Char) (maxPoints : Nat) : List (List Char) → FBState → FBState
  | [], st => st
  | q :: rest, st =>
    match indexOfFrom t q 0 with
    | some idx =>
      let r := tryAdd t st idx (idx + jsLength q) .high .definition
      if r.2 && decide (r.1.keyPoints.length ≥ maxPoints) then r.1
      else stage2Loop t maxPoints rest r.1
    | none => stage2Loop t maxPoints rest st

/-- Strategy 3: leading sentence of each of the first six long paragraphs. -/
def stage3Loop (t : List Char) (maxPoints : Nat) : List (List Char) → FBState → FBState
  | [], st => st
  | p :: rest, st =>
    match (splitIntoSentences p).find? (fun z => 25 ≤ jsLength z && jsLength z ≤ 160) with
    | some sSent =>
      match indexOfFrom t sSent 0 with
      | some idx =>
        let r := tryAdd t st idx (idx + jsLength sSent) .medium .fact
        if r.2 && decide (r.1.keyPoints.length ≥ maxPoints) then r.1
        else stage3Loop t maxPoints rest r.1
      | none => stage3Loop t maxPoints rest st
    | none => stage3Loop t maxPoints rest st

def extractFallbackKeyPoints (t : List Char) (maxPoints : Nat) (takenSpans : List Span) :
    List KeyPoint :=
  let st1 := stage1Loop t maxPoints (splitIntoSentences t) ⟨[], takenSpans⟩
  let st2 :=
    if st1.keyPoints.length < maxPoints then stage2Loop t maxPoints (quoteCandidates t) st1
    else st1
  let paragraphs := ((splitOnBlankLines t).filter (fun p => jsLength (jsTrim p) > 50)).take 6
  let st3 :=
    if st2.keyPoints.length < maxPoints then stage3Loop t maxPoints paragraphs st2
    else st2
  (deduplicateKeyPoints st3.keyPoints).take maxPoints

/-! ## Placement resolver -/

/-- In the typed model the dynamic `typeof`/enum-membership checks of
`isValidPhraseSkeleton` always hold. -/
def isValidPhraseSkeleton (_phrase : AIKeyPhrase) : Bool := true

/-- The span produced for a candidate occurrence `[sn, en)`: sentence/clause
normalization followed by length clamping. -/
def anchorSpan (t : List Char) (sn en : Nat) : Span :=
  clampSpanLength t (normalizeSpanToSentenceOrClause t ⟨sn, en⟩) MIN_PHRASE_LEN MAX_PHRASE_LEN

/-- Step 1 of `placeAndNormalizePhrase`: the model-offset (anchor) branch.
Returns the key point produced by that branch, or `none` when the branch
does not return (missing/invalid offsets, slice mismatch, overlap, or a
too-short trimmed slice) and control falls through to the global search. -/
def anchorOutcome (phrase : AIKeyPhrase) (fullText : List Char) (taken : List Span) : Option KeyPoint :=
  let raw := jsTrim phrase.text
  match phrase.startPos, phrase.endPos with
  | some s, some e =>
    if 0 ≤ s ∧ s < e ∧ e ≤ (jsLength fullText : Int) then
      let sn := s.toNat
      let en := e.toNat
      if slice fullText sn en = raw then
        let norm := anchorSpan fullText sn en
        if taken.any (fun tk => overlaps tk norm) then none
        else
          let txt := jsTrim (slice fullText norm.start norm.stop)
          if jsLength txt ≥ MIN_PHRASE_LEN then
            some ⟨txt, norm.start, norm.stop, phrase.importance, phrase.category⟩
          else none
      else none
    else none
  | _, _ => none

/-- Step 2: the global regex loop (`escapeRegex` makes it a literal search;
`lastIndex` resumes after each match, i.e. at `index + raw.length`).  The
fuel bounds the number of matches tried; `t.length + 1` always suffices for a
non-empty needle. -/
def globalSearchLoop (phrase : AIKeyPhrase) (fullText : List Char) (taken : List Span)
    (raw : List Char) : Nat → Nat → Option KeyPoint
  | 0, _ => none
  | fuel + 1, pos =>
    match indexOfFrom fullText raw pos with
    | none => none
    | some idx =>
      let span := anchorSpan fullText idx (idx + jsLength raw)
      if taken.any (fun tk => overlaps tk span) then
        globalSearchLoop phrase fullText taken raw fuel (idx + jsLength raw)
      else
        let txt := jsTrim (slice fullText span.start span.stop)
        if jsLength txt ≥ MIN_PHRASE_LEN then
          some ⟨txt, span.start, span.stop, phrase.importance, phrase.category⟩
        else globalSearchLoop phrase fullText taken raw fuel (idx + jsLength raw)

def placeAndNormalizePhrase (phrase : AIKeyPhrase) (fullText : List Char) (taken : List Span) :
    Option KeyPoint :=
  let raw := jsTrim phrase.text
  if raw.isEmpty then none
  else
    match anchorOutcome phrase fullText taken with
    | some kp => some kp
    | none => globalSearchLoop phrase fullText taken raw (jsLength fullText + 1) 0

/-! ## Response processing -/

def placeLoop (t : List Char) : List AIKeyPhrase → List KeyPoint → List Span →
    List KeyPoint × List Span
  | [], kps, taken => (kps, taken)
  | p :: rest, kps, taken =>
    if isValidPhraseSkeleton p then
      match placeAndNormalizePhrase p t taken with
      | some kp => placeLoop t rest (kps ++ [kp]) (taken ++ [⟨kp.startPos, kp.endPos⟩])
      | none => placeLoop t rest kps taken
    else placeLoop t rest kps taken

/-- `processSummaryResponse`; in the typed model only the falsy-summary check
can throw (`!response.summary`; the object and array checks always pass). -/
def processSummaryResponse (response : AIResponse) (originalText : List Char) :
    Except (List Char) SummaryResult :=
  if response.summary.isEmpty then .error ("AI did not generate a valid summary".toList)
  else
    let pl := placeLoop originalText response.keyPhrases [] []
    let keyPoints :=
      if pl.1.length < MIN_KP then
        pl.1 ++ extractFallbackKeyPoints originalText (MIN_KP - pl.1.length) pl.2
      else pl.1
    .ok ⟨jsTrim response.summary, keyPoints.take MAX_KP⟩

/-! ## Enhanced fallback summary -/

def generateEnhancedFallback (t : List Char) (lang : EffectiveLang) : SummaryResult :=
  let s := i18nStrings lang
  let paragraphs := (splitOnBlankLines t).filter (fun p => jsLength (jsTrim p) > 30)
  let base := s.mainPoints ++ ("\n\n".toList)
  let body := ((paragraphs.take 4).enum.map (fun ip =>
      match (splitIntoSentences ip.2).find? (fun z => 30 ≤ jsLength z && jsLength z ≤ 180) with
      | some first =>
        ("**".toList) ++ (Nat.repr (ip.1 + 1)).toList ++ (". ".toList) ++ jsTrim first ++
          ("**\n\n".toList)
      | none => [])).flatten
  let concl :=
    if paragraphs.length > 1 then
      match paragraphs.getLast? with
      | some lastP =>
        match (splitIntoSentences lastP).find? (fun z => 20 ≤ jsLength z) with
        | some c => s.conclusion ++ ("\n\n".toList) ++ jsTrim c ++ ("\n".toList)
        | none => []
      | none => []
    else []
  ⟨jsTrim (base ++ body ++ concl), extractFallbackKeyPoints t MAX_KP []⟩

/-! ## Chunking -/

structure Chunk where
  text : List Char
  startOffset : Nat
deriving DecidableEq, Repr

/-- The `while (start < text.length)` loop; each iteration advances `start`
by `maxChars - overlap`, so for the call sites (where `overlap < maxChars`)
fuel `t.length + 1` always suffices. -/
def chunkLoop (t : List Char) (maxChars overlap : Nat) : Nat → Nat → List Chunk
  | 0, _ => []
  | fuel + 1, start =>
    if start < jsLength t then
      let stop := min (start + maxChars) (jsLength t)
      let c : Chunk := ⟨slice t start stop, start⟩
      if stop = jsLength t then [c]
      else c :: chunkLoop t maxChars overlap fuel (stop - overlap)
    else []

def chunkTextWithOffsets (t : List Char) (maxChars : Nat) (overlap : Nat) : List Chunk :=
  if jsLength t ≤ maxChars then [⟨t, 0⟩]
  else chunkLoop t maxChars overlap (jsLength t + 1) 0

/-! ## Merging -/

def mergeChunkSummaries (chunks : List SummaryResult) (lang : EffectiveLang) : SummaryResult :=
  let s := i18nStrings lang
  let merged := (chunks.enum.map (fun ic =>
    ("### ".toList) ++ s.part ++ (" ".toList) ++ (Nat.repr (ic.1 + 1)).toList ++
      ("\n\n".toList) ++ ic.2.summary ++ ("\n\n".toList))).flatten
  let unique := (deduplicateKeyPoints ((chunks.map (·.keyPoints)).flatten)).take MAX_KP
  ⟨jsTrim merged, unique⟩

/-! ## Input validation, language handling -/

structure ValidationResult where
  valid : Bool
  message : Option (List Char)
deriving DecidableEq, Repr

def validateSummaryInput (text : List Char) : ValidationResult :=
  if text.isEmpty then ⟨false, some ("Text is required".toList)⟩
  else
    let trimmed := jsTrim text
    if jsLength trimmed < 50 then
      ⟨false, some ("Text is too short. Please provide at least 50 characters.".toList)⟩
    else if jsLength trimmed > 50000 then
      ⟨false, some ("Text is too long. Please provide less than 50,000 characters.".toList)⟩
    else
      -- the source message reads "doesn't"; the apostrophe is spelled out here
      if ((splitWs trimmed).filter (fun w => jsLength w > 2)).length < 20 then
        ⟨false, some ("Text does not contain enough meaningful content.".toList)⟩
      else ⟨true, none⟩

/-- JS `toLowerCase` (the inputs compared against are ASCII apart from
`français`, whose cedilla is already lower case). -/
def toLowerAscii (s : List Char) : List Char := s.map Char.toLower

def normalizeLanguage (language : List Char) : LanguageCode :=
  let lang := toLowerAscii language
  if lang = ("fr".toList) ∨ lang = ("french".toList) ∨ lang = ("français".toList) then .fr
  else if lang = ("en".toList) ∨ lang = ("english".toList) then .en
  else .auto

def frAccents : List Char := "àâäçéèêëîïôöùûüÿœæ".toList

def frWords : List (List Char) :=
  [("les".toList), ("des".toList), ("une".toList), ("dans".toList), ("avec".toList),
   ("sans".toList), ("pour".toList), ("sur".toList), ("ce".toList), ("cette".toList),
   ("ces".toList), ("est".toList), ("sont".toList)]

def isFrDelim (c : Char) : Bool :=
  isWsChar c || c = ',' || c = '.' || c = '!' || c = '?' || c = ';' || c = ':'

/-- The `frHints` regex test: an accented character anywhere, or one of the
function words preceded by start/whitespace and followed by
whitespace/punctuation (case-insensitively). -/
def frHintsTest (t : List Char) : Bool :=
  let lower := toLowerAscii t
  lower.any (fun c => frAccents.contains c) ||
  (List.range (jsLength t)).any (fun i =>
    (decide (i = 0) ||
      (match lower.get? (i - 1) with | some c => isWsChar c | none => false)) &&
    frWords.any (fun w =>
      w.isPrefixOf (lower.drop i) &&
      (match lower.get? (i + jsLength w) with | some c => isFrDelim c | none => false)))

def inferLanguage (t : List Char) : EffectiveLang :=
  if frHintsTest t then .fr else .en

/-! ## Top-level pipeline -/

/-- `generateSingleSummary`: one collaborator call plus response processing
(the prompt construction is folded into the oracle). -/
def generateSingleSummary (oracle : Oracle) (langCode : LanguageCode) (t : List Char) :
    Except (List Char) SummaryResult :=
  match oracle langCode t with
  | .error e => .error e
  | .ok response => processSummaryResponse response t

/-- The per-chunk loop of `generateChunkedSummary`: failed chunks are
skipped, successful ones contribute their summary and their key points
translated by the chunk's start offset. -/
def chunkResultsLoop (oracle : Oracle) (lang : LanguageCode) : List Chunk → List SummaryResult
  | [] => []
  | c :: rest =>
    match generateSingleSummary oracle lang c.text with
    | .ok res =>
      ⟨res.summary,
        res.keyPoints.map (fun kp =>
          { kp with startPos := kp.startPos + c.startOffset,
                    endPos := kp.endPos + c.startOffset })⟩ :: chunkResultsLoop oracle lang rest
    | .error _ => chunkResultsLoop oracle lang rest

def generateChunkedSummary (oracle : Oracle) (promptLang : LanguageCode)
    (effectiveLang : EffectiveLang) (t : List Char) : SummaryResult :=
  let chunkSize := MAX_TOKENS * CHARS_PER_TOKEN
  let chunks := chunkTextWithOffsets t chunkSize CHUNK_OVERLAP
  let chunkSummaries := chunkResultsLoop oracle promptLang chunks
  if chunkSummaries.isEmpty then generateEnhancedFallback t effectiveLang
  else mergeChunkSummaries chunkSummaries effectiveLang

def generateSummary (oracle : Oracle) (language : List Char) (text : List Char) :
    Except (List Char) SummaryResult :=
  let inputCheck := validateSummaryInput text
  if !inputCheck.valid then .error (inputCheck.message.getD ("Invalid input.".toList))
  else
    let promptLang := normalizeLanguage language
    let effectiveLang : EffectiveLang :=
      match promptLang with
      | .auto => inferLanguage text
      | .en => .en
      | .fr => .fr
    let estTokens := (jsLength text + CHARS_PER_TOKEN - 1) / CHARS_PER_TOKEN
    let attempt : Except (List Char) SummaryResult :=
      if estTokens > MAX_TOKENS then
        .ok (generateChunkedSummary oracle promptLang effectiveLang text)
      else generateSingleSummary oracle promptLang text
    match attempt with
    | .ok r => .ok r
    | .error _ => .ok (generateEnhancedFallback text effectiveLang)


/-! ## Result checkers -/

def spanOf (kp : KeyPoint) : Span := ⟨kp.startPos, kp.endPos⟩

/-- Pairwise non-overlap of the spans of a key-point list (the spec's
overlap relation). -/
def spansPairwiseFree : List KeyPoint → Bool
  | [] => true
  | kp :: rest =>
    rest.all (fun x => !overlaps (spanOf kp) (spanOf x)) && spansPairwiseFree rest

/-- Ascending `startPos` for adjacent pairs. -/
def sortedByStartB : List KeyPoint → Bool
  | [] => true
  | [_] => true
  | a :: b :: rest => decide (a.startPos ≤ b.startPos) && sortedByStartB (b :: rest)

/-! ## Concrete inputs used by counterexamples and witnesses -/

/-- C4: two plain sentences. -/
def c4t : List Char := ("Hello there mister. Goodbye my friend.".toList)

/-- C3: a phrase that occurs twice; the candidate's declared offsets anchor
it exactly at the first occurrence. -/
def c3t : List Char := ("Alpha beta gamma delta. Alpha beta gamma delta. Final bit.".toList)

def c3ph : AIKeyPhrase := ⟨("Alpha beta gamma delta".toList), some 0, some 22, .high, .fact⟩

/-- C7/C2/C6/C1: eight 13-character sentences (the final space dropped). -/
def sent7 (k : Char) : List Char := [k] ++ ("aa bbb ccc. ".toList)

def t7 : List Char :=
  (sent7 'A' ++ sent7 'B' ++ sent7 'C' ++ sent7 'D' ++ sent7 'E' ++ sent7 'F' ++
    sent7 'G' ++ sent7 'H').dropLast

/-- The `k`-th sentence of `t7` as an exactly anchored candidate phrase. -/
def ph7 (k : Nat) : AIKeyPhrase :=
  ⟨slice t7 (13 * k) (13 * k + 11), some (13 * k), some (13 * k + 11), .high, .fact⟩

/-- A collaborator response listing the eight anchored phrases of `t7` in
reverse text order. -/
def resp7 : AIResponse :=
  ⟨("ok".toList), [ph7 7, ph7 6, ph7 5, ph7 4, ph7 3, ph7 2, ph7 1, ph7 0]⟩

def oracle7 : Oracle := fun _ t =>
  if t.head? = some 'A' then .ok resp7 else .error ("no".toList)

/-- The summary produced by the `oracle7`/`t7` run. -/
def r7 : SummaryResult := (generateSummary oracle7 ("en".toList) t7).toOption.getD ⟨[], []⟩

/-- C9: fifteen 36-character sentences (the final space dropped). -/
def sent9 (k : Char) : List Char :=
  ("Sent ".toList) ++ [k] ++ (" aaaa bbbb cccc dddd eeee ff. ".toList)

def t9 : List Char :=
  (sent9 'A' ++ sent9 'B' ++ sent9 'C' ++ sent9 'D' ++ sent9 'E' ++ sent9 'F' ++ sent9 'G' ++
   sent9 'H' ++ sent9 'I' ++ sent9 'J' ++ sent9 'K' ++ sent9 'L' ++ sent9 'M' ++ sent9 'N' ++
   sent9 'O').dropLast

/-- C1: a 229-character source text: eight sentences, a 19-character `q` run
closed by `". "`, then eight more sentences. -/
def cxSent (k : Char) : List Char := [k] ++ ("aa bbb ccc. ".toList)

def cxQ : List Char := List.replicate 19 'q'

def cxText : List Char :=
  cxSent 'A' ++ cxSent 'B' ++ cxSent 'C' ++ cxSent 'D' ++ cxSent 'E' ++ cxSent 'F' ++
  cxSent 'G' ++ cxSent 'H' ++ cxQ ++ (". ".toList) ++
  cxSent 'I' ++ cxSent 'J' ++ cxSent 'K' ++ cxSent 'L' ++ cxSent 'M' ++ cxSent 'N' ++
  cxSent 'O' ++ cxSent 'P'

/-- Two overlapping windows over `cxText`, shaped like the windows
`chunkTextWithOffsets` produces (each window is the slice of the source at
its start offset; the windows overlap). -/
def cxChunk1 : Chunk := ⟨slice cxText 0 125, 0⟩

def cxChunk2 : Chunk := ⟨slice cxText 111 229, 111⟩

/-- The collaborator responses for the two windows: eight exactly anchored
phrases each.  Window 1 anchors the full 19-`q` run; window 2, which starts
inside that run, anchors the 12 `q`s it can see at its local origin. -/
def cxPhA (k : Nat) : AIKeyPhrase :=
  ⟨slice cxText (13 * k) (13 * k + 11), some ((13 * k : Nat) : Int),
    some ((13 * k + 11 : Nat) : Int), .high, .fact⟩

def cxPhAq : AIKeyPhrase := ⟨cxQ, some 104, some 123, .high, .fact⟩

def cxRespA : AIResponse :=
  ⟨("ok".toList), [cxPhA 0, cxPhA 1, cxPhA 2, cxPhA 3, cxPhA 4, cxPhA 5, cxPhA 6, cxPhAq]⟩

def cxPhB (k : Nat) : AIKeyPhrase :=
  ⟨slice cxChunk2.text (14 + 13 * k) (14 + 13 * k + 11), some ((14 + 13 * k : Nat) : Int),
    some ((14 + 13 * k + 11 : Nat) : Int), .high, .fact⟩

def cxPhBq : AIKeyPhrase := ⟨List.replicate 12 'q', some 0, some 12, .high, .fact⟩

def cxRespB : AIResponse :=
  ⟨("ok".toList), [cxPhBq, cxPhB 0, cxPhB 1, cxPhB 2, cxPhB 3, cxPhB 4, cxPhB 5, cxPhB 6]⟩

def cxOracle : Oracle := fun _ t =>
  if t.head? = some 'A' then .ok cxRespA
  else if t.head? = some 'q' then .ok cxRespB
  else .error ("no".toList)


/-! ## Verification invariants -/

/-- The per-key-point output invariant: substring fidelity, in-bounds span,
and clamped span length (lower and upper bounds). -/
def GoodKP (t : List Char) (kp : KeyPoint) : Prop :=
  kp.text = jsTrim (slice t kp.startPos kp.endPos) ∧
  kp.endPos ≤ t.length ∧
  MIN_PHRASE_LEN ≤ kp.endPos - kp.startPos ∧
  kp.endPos - kp.startPos ≤ MAX_PHRASE_LEN ∧
  MIN_PHRASE_LEN ≤ kp.text.length

/-- Pairwise span non-overlap, as a proposition. -/
def PairwiseFree (l : List KeyPoint) : Prop :=
  List.Pairwise (fun a b => overlaps (spanOf a) (spanOf b) = false) l

/-- A chunk window is faithful: its text is the slice of the full text at
its offset, and it lies within the full text. -/
def ChunkOK (t : List Char) (c : Chunk) : Prop :=
  c.text = slice t c.startOffset (c.startOffset + c.text.length) ∧
  c.startOffset + c.text.length ≤ t.length

/-- Invariant of the fallback extraction state relative to the initially
taken spans `base`. -/
def FBInv (t : List Char) (base : List Span) (st : FBState) : Prop :=
  (∀ kp ∈ st.keyPoints, GoodKP t kp) ∧
  PairwiseFree st.keyPoints ∧
  (∀ kp ∈ st.keyPoints, spanOf kp ∈ st.taken) ∧
  (∀ sp ∈ base, sp ∈ st.taken) ∧
  (∀ kp ∈ st.keyPoints, ∀ sp ∈ base, overlaps sp (spanOf kp) = false)

/-! # Theorems -/

/-! ## Basic list lemmas -/

theorem lenGo_eq (s : List Char) : ∀ acc, lenGo s acc = s.length + acc := by
  induction s with
  | nil => intro acc; simp [lenGo]
  | cons c t ih =>
    intro acc
    cases acc with
    | zero => rw [show lenGo (c :: t) 0 = lenGo t 1 from rfl, ih, List.length_cons]
    | succ a =>
      rw [show lenGo (c :: t) (a + 1) = lenGo t (a + 2) from rfl, ih, List.length_cons]; omega

theorem jsLength_eq (s : List Char) : jsLength s = s.length := by
  simp [jsLength, lenGo_eq]

theorem jsTrim_length_le (s : List Char) : (jsTrim s).length ≤ s.length := by
  have h1 : (s.dropWhile isWsChar).length ≤ s.length :=
    (List.dropWhile_sublist isWsChar).length_le
  have h2 : ((s.dropWhile isWsChar).reverse.dropWhile isWsChar).length ≤
      (s.dropWhile isWsChar).reverse.length :=
    (List.dropWhile_sublist isWsChar).length_le
  simp only [jsTrim, List.length_reverse] at *
  omega

theorem slice_length_le (s : List Char) (a b : Nat) : (slice s a b).length ≤ b - a := by
  simp only [slice, List.length_drop, List.length_take]
  omega

/-! ## C4: idempotence of span normalization -/

/-- Characterisation of the closing-or-space run length. -/
theorem closingOrSpaceRunLen_spec (l : List Char) :
    ∀ d, d < closingOrSpaceRunLen l →
      ∃ c, l.get? d = some c ∧ isClosingQuoteOrSpace c = true := by
  induction l with
  | nil => intro d hd; simp [closingOrSpaceRunLen] at hd
  | cons c r ih =>
    intro d hd
    by_cases hcs : isClosingQuoteOrSpace c
    · match d with
      | 0 => exact ⟨c, by simp, hcs⟩
      | d + 1 =>
        simp only [closingOrSpaceRunLen, if_pos hcs] at hd
        have := ih d (by omega)
        simpa using this
    · simp [closingOrSpaceRunLen, hcs] at hd

theorem cs_not_term {c : Char} (h : isClosingQuoteOrSpace c = true) :
    isSentenceTerminator c = false := by
  simp only [isClosingQuoteOrSpace, isClosingQuoteOrParen, Bool.or_eq_true,
    decide_eq_true_eq, or_assoc] at h
  rcases h with h | h | h | h | h | h | h | h | h <;> subst h <;> decide

theorem cs_not_newline {c : Char} (h : isClosingQuoteOrSpace c = true) : ¬ c = '\n' := by
  simp only [isClosingQuoteOrSpace, isClosingQuoteOrParen, Bool.or_eq_true,
    decide_eq_true_eq, or_assoc] at h
  rcases h with h | h | h | h | h | h | h | h | h <;> subst h <;> decide

/-- Stepping across the closing/space run after a terminator: every entry
point inside the run scans back to the terminator and lands at the run's
end. -/
theorem flbAux_run (t : List Char) (m : Nat) (c : Char)
    (hm : t.get? m = some c) (hterm : isSentenceTerminator c = true) :
    ∀ d, d ≤ closingOrSpaceRunLen (t.drop (m + 1)) →
      findLeftBoundaryAux t (m + 1 + d) = skipClosingOrSpace t (m + 1) := by
  intro d
  induction d with
  | zero =>
    intro _
    simp only [Nat.add_zero, findLeftBoundaryAux, hm, hterm, if_pos]
  | succ d ih =>
    intro hd
    obtain ⟨c', hc', hcs⟩ := closingOrSpaceRunLen_spec (t.drop (m + 1)) d (by omega)
    rw [List.get?_drop] at hc'
    have hterm' := cs_not_term hcs
    have hnl' := cs_not_newline hcs
    have hstep : findLeftBoundaryAux t (m + 1 + (d + 1)) = findLeftBoundaryAux t (m + 1 + d) := by
      have harith : m + 1 + (d + 1) = (m + 1 + d) + 1 := by omega
      rw [harith]
      simp only [findLeftBoundaryAux, hc']
      simp [hterm', hnl']
    rw [hstep]
    exact ih (by omega)

theorem closingOrSpaceRunLen_stop (l : List Char) :
    ∀ c, l.get? (closingOrSpaceRunLen l) = some c → isClosingQuoteOrSpace c = false := by
  induction l with
  | nil => intro c h; simp at h
  | cons a r ih =>
    intro c h
    by_cases ha : isClosingQuoteOrSpace a
    · simp only [closingOrSpaceRunLen, if_pos ha] at h
      exact ih c (by simpa using h)
    · simp only [closingOrSpaceRunLen, if_neg ha] at h
      simp at h
      rw [← h]
      exact Bool.eq_false_iff.mpr ha

/-- `findLeftBoundary` is idempotent. -/
theorem findLeftBoundaryAux_idem (t : List Char) :
    ∀ n, findLeftBoundaryAux t (findLeftBoundaryAux t n) = findLeftBoundaryAux t n := by
  intro n
  induction n with
  | zero => simp [findLeftBoundaryAux]
  | succ m ih =>
    cases hm : t.get? m with
    | none =>
      have hstep : findLeftBoundaryAux t (m + 1) = findLeftBoundaryAux t m := by
        simp only [findLeftBoundaryAux, hm]
      rw [hstep]
      exact ih
    | some c =>
      by_cases hterm : isSentenceTerminator c = true
      · have hstep : findLeftBoundaryAux t (m + 1) = skipClosingOrSpace t (m + 1) := by
          simp only [findLeftBoundaryAux, hm]
          simp [hterm]
        rw [hstep]
        have := flbAux_run t m c hm hterm (closingOrSpaceRunLen (t.drop (m + 1))) le_rfl
        simpa [skipClosingOrSpace] using this
      · rw [Bool.not_eq_true] at hterm
        by_cases hnl : (c = '\n' && m ≥ 1 && t.get? (m - 1) = some '\n') = true
        · have hstep : findLeftBoundaryAux t (m + 1) = m + 1 := by
            simp only [findLeftBoundaryAux, hm, hterm]
            simp only [hnl]
            simp
          rw [hstep, hstep]
        · rw [Bool.not_eq_true] at hnl
          have hstep : findLeftBoundaryAux t (m + 1) = findLeftBoundaryAux t m := by
            simp only [findLeftBoundaryAux, hm, hterm]
            simp only [hnl]
            simp
          rw [hstep]
          exact ih

/-- C4 counterexample: normalizing the already-normalized span `[0, 19)` of
`"Hello there mister. Goodbye my friend."` (the first sentence, itself the
normalization of `[0, 5)`) extends it across the second sentence, so
normalization is not idempotent. -/
theorem c4_counterexample :
    normalizeSpanToSentenceOrClause c4t ⟨0, 5⟩ = ⟨0, 19⟩ ∧
    normalizeSpanToSentenceOrClause c4t (normalizeSpanToSentenceOrClause c4t ⟨0, 5⟩) =
      ⟨0, 38⟩ := by
  constructor <;> rfl

/-- C4 (amended): full span normalization is not idempotent — renormalizing a
span that ends just past a sentence terminator extends its right boundary to
the next sentence (see `c4_counterexample`).  The left-boundary scan that
normalization is built on is idempotent:
`findLeftBoundary(text, findLeftBoundary(text, i)) = findLeftBoundary(text, i)`. -/
theorem c4_left_boundary_idempotent (t : List Char) (i : Nat) :
    findLeftBoundary t (findLeftBoundary t i) = findLeftBoundary t i :=
  findLeftBoundaryAux_idem t i


/-! ## C10: validation measures the trimmed text -/

/-- C10: the 50-character minimum and the 50,000-character maximum are
checked on the whitespace-trimmed text (so a raw string of length ≥ 50 that
trims below 50 is rejected as too short), and the 20-word content check
splits the trimmed text on whitespace. -/
theorem c10_trimmed_validation (text : List Char) :
    (50 ≤ text.length → (jsTrim text).length < 50 →
      validateSummaryInput text =
        ⟨false, some ("Text is too short. Please provide at least 50 characters.".toList)⟩) ∧
    ((jsTrim text).length > 50000 →
      validateSummaryInput text =
        ⟨false, some ("Text is too long. Please provide less than 50,000 characters.".toList)⟩) ∧
    (50 ≤ (jsTrim text).length → (jsTrim text).length ≤ 50000 →
      ((validateSummaryInput text).valid = true ↔
        20 ≤ ((splitWs (jsTrim text)).filter (fun w => 2 < w.length)).length)) := by
  have hne : ∀ h : text ≠ [], text.isEmpty = false := by
    intro h; cases text with
    | nil => simp at h
    | cons a l => rfl
  refine ⟨?_, ?_, ?_⟩
  · intro hraw htrim
    have h1 : text ≠ [] := by
      intro h; subst h; simp at hraw
    simp only [validateSummaryInput, hne h1, Bool.false_eq_true, if_false, jsLength_eq]
    rw [if_pos htrim]
  · intro htrim
    have h1 : text ≠ [] := by
      intro h; subst h; simp [jsTrim] at htrim
    have h2 : ¬ (jsTrim text).length < 50 := by omega
    simp only [validateSummaryInput, hne h1, Bool.false_eq_true, if_false, jsLength_eq]
    rw [if_neg h2, if_pos htrim]
  · intro hlo hhi
    have h1 : text ≠ [] := by
      intro h; subst h; simp [jsTrim] at hlo
    have h2 : ¬ (jsTrim text).length < 50 := by omega
    have h3 : ¬ (jsTrim text).length > 50000 := by omega
    simp only [validateSummaryInput, hne h1, Bool.false_eq_true, if_false, jsLength_eq]
    rw [if_neg h2, if_neg h3]
    by_cases h4 :
        ((splitWs (jsTrim text)).filter (fun w => decide (2 < w.length))).length < 20
    · rw [if_pos (by simpa [jsLength_eq] using h4)]
      constructor
      · intro h; cases h
      · intro h; omega
    · rw [if_neg (by simpa [jsLength_eq] using h4)]
      constructor
      · intro _; omega
      · intro _; rfl

/-- C10 witness: a 49-character sentence padded with whitespace to raw
length 55 is rejected as too short. -/
theorem c10_witness :
    validateSummaryInput
        (("The quick brown fox jumped over five lazy dogs!!!      ").toList) =
      ⟨false, some ("Text is too short. Please provide at least 50 characters.".toList)⟩ :=
  (c10_trimmed_validation _).1 (by decide) (by decide)

/-! ## C5: errors exactly on invalid input, total otherwise -/

/-- C5: `generateSummary` raises an error exactly when validation fails (the
error is the validation message, independent of the model oracle, so it is
raised before any model call); on every validated input it returns a
`SummaryResult` — any failure of the model call, coercion, or processing is
converted into the fallback result. -/
theorem c5_validation_totality (oracle : Oracle) (language text : List Char) :
    ((validateSummaryInput text).valid = false ∧
      generateSummary oracle language text =
        .error ((validateSummaryInput text).message.getD ("Invalid input.".toList))) ∨
    ((validateSummaryInput text).valid = true ∧
      ∃ r, generateSummary oracle language text = .ok r) := by
  by_cases hv : (validateSummaryInput text).valid = true
  · right
    refine ⟨hv, ?_⟩
    simp only [generateSummary, hv, Bool.not_true, Bool.false_eq_true, if_false]
    cases h : (if (jsLength text + CHARS_PER_TOKEN - 1) / CHARS_PER_TOKEN > MAX_TOKENS then
        Except.ok (generateChunkedSummary oracle (normalizeLanguage language)
          (match normalizeLanguage language with
            | .auto => inferLanguage text
            | .en => .en
            | .fr => .fr) text)
      else generateSingleSummary oracle (normalizeLanguage language) text) with
    | ok r => exact ⟨r, rfl⟩
    | error e =>
      refine ⟨generateEnhancedFallback text
        (match normalizeLanguage language with
          | .auto => inferLanguage text
          | .en => .en
          | .fr => .fr), ?_⟩
      rfl
  · left
    rw [Bool.not_eq_true] at hv
    refine ⟨hv, ?_⟩
    simp only [generateSummary, hv, Bool.not_false, if_true]


/-! ## C3: anchor preference -/

/-- C3 counterexample: `c3ph` is an exact anchor match (offsets `[0, 22)`,
`slice == trimmed text`), yet with the first sentence already taken the
resolver's result is NOT determined by the anchor branch: the anchor branch
yields `none` (overlap) and the resolver falls through to the global search,
returning a key point at the second occurrence `[24, 47)`. -/
theorem c3_counterexample :
    ((0 : Int) ≤ 0 ∧ (0 : Int) < 22 ∧ (22 : Int) ≤ (c3t.length : Int) ∧
      slice c3t 0 22 = jsTrim c3ph.text) ∧
    anchorOutcome c3ph c3t [⟨0, 23⟩] = none ∧
    (placeAndNormalizePhrase c3ph c3t [⟨0, 23⟩]).map
        (fun kp => (kp.startPos, kp.endPos)) = some (24, 47) ∧
    placeAndNormalizePhrase c3ph c3t [⟨0, 23⟩] ≠ anchorOutcome c3ph c3t [⟨0, 23⟩] := by
  refine ⟨⟨by decide, by decide, by decide, by rfl⟩, by rfl, by rfl, ?_⟩
  intro h
  have h1 : anchorOutcome c3ph c3t [⟨0, 23⟩] = none := by rfl
  rw [h1] at h
  cases h

/-- C3 (amended): the resolver prefers the anchor branch, but only when that
branch succeeds outright: if the declared offsets are an exact anchor match
AND the normalized/clamped anchor span does not overlap `taken` AND its
trimmed slice reaches `MIN_PHRASE_LEN`, the result is the anchor branch's
key point and the global search is never consulted.  (When the anchor span
is blocked, the resolver falls through to the global search, unlike what the
claim states.) -/
theorem c3_anchor_preference_amended (phrase : AIKeyPhrase) (t : List Char)
    (taken : List Span) (s e : Int)
    (hs : phrase.startPos = some s) (he : phrase.endPos = some e)
    (h0 : 0 ≤ s) (hse : s < e) (hel : e ≤ (jsLength t : Int))
    (hslice : slice t s.toNat e.toNat = jsTrim phrase.text)
    (hnov : taken.any (fun tk => overlaps tk (anchorSpan t s.toNat e.toNat)) = false)
    (hlen : MIN_PHRASE_LEN ≤ jsLength (jsTrim (slice t (anchorSpan t s.toNat e.toNat).start
      (anchorSpan t s.toNat e.toNat).stop))) :
    placeAndNormalizePhrase phrase t taken = anchorOutcome phrase t taken ∧
    anchorOutcome phrase t taken =
      some ⟨jsTrim (slice t (anchorSpan t s.toNat e.toNat).start
              (anchorSpan t s.toNat e.toNat).stop),
            (anchorSpan t s.toNat e.toNat).start, (anchorSpan t s.toNat e.toNat).stop,
            phrase.importance, phrase.category⟩ := by
  have hanchor : anchorOutcome phrase t taken =
      some ⟨jsTrim (slice t (anchorSpan t s.toNat e.toNat).start
              (anchorSpan t s.toNat e.toNat).stop),
            (anchorSpan t s.toNat e.toNat).start, (anchorSpan t s.toNat e.toNat).stop,
            phrase.importance, phrase.category⟩ := by
    simp only [anchorOutcome, hs, he]
    rw [if_pos ⟨h0, hse, hel⟩, if_pos hslice, if_neg (by simp [hnov]), if_pos (by
      simpa using hlen)]
  refine ⟨?_, hanchor⟩
  have hraw : (jsTrim phrase.text).isEmpty = false := by
    have hlt : s.toNat < e.toNat := by omega
    have hlen2 : e.toNat ≤ t.length := by
      rw [jsLength_eq] at hel; omega
    have : (slice t s.toNat e.toNat).length = e.toNat - s.toNat := by
      simp only [slice, List.length_drop, List.length_take]
      omega
    rw [hslice] at this
    cases hjt : jsTrim phrase.text with
    | nil => rw [hjt] at this; simp at this; omega
    | cons a l => rfl
  simp only [placeAndNormalizePhrase, hraw, Bool.false_eq_true, if_false, hanchor]

/-- C3 amended witness: with no taken spans, the same anchored phrase is
placed by the anchor branch at the (normalized) first occurrence. -/
theorem c3_amended_witness :
    placeAndNormalizePhrase c3ph c3t [] = anchorOutcome c3ph c3t [] ∧
    anchorOutcome c3ph c3t [] =
      some ⟨jsTrim (slice c3t (anchorSpan c3t (0 : Int).toNat (22 : Int).toNat).start
              (anchorSpan c3t (0 : Int).toNat (22 : Int).toNat).stop),
            (anchorSpan c3t (0 : Int).toNat (22 : Int).toNat).start,
            (anchorSpan c3t (0 : Int).toNat (22 : Int).toNat).stop,
            c3ph.importance, c3ph.category⟩ :=
  c3_anchor_preference_amended c3ph c3t [] 0 22 rfl rfl (by decide) (by decide)
    (by decide) (by rfl) (by rfl) (by decide)


/-! ## Scanner and trim bounds -/

theorem closingParenRunLen_le (l : List Char) : closingParenRunLen l ≤ l.length := by
  induction l with
  | nil => simp [closingParenRunLen]
  | cons c r ih =>
    by_cases h : isClosingQuoteOrParen c <;> simp [closingParenRunLen, h] ; omega

theorem closingOrSpaceRunLen_le (l : List Char) : closingOrSpaceRunLen l ≤ l.length := by
  induction l with
  | nil => simp [closingOrSpaceRunLen]
  | cons c r ih =>
    by_cases h : isClosingQuoteOrSpace c <;> simp [closingOrSpaceRunLen, h] ; omega

theorem skipClosingParen_ge (t : List Char) (j : Nat) : j ≤ skipClosingParen t j :=
  Nat.le_add_right _ _

theorem skipClosingParen_le (t : List Char) (j : Nat) (h : j ≤ t.length) :
    skipClosingParen t j ≤ t.length := by
  have := closingParenRunLen_le (t.drop j)
  simp only [List.length_drop] at this
  simp only [skipClosingParen]
  omega

theorem skipClosingOrSpace_le (t : List Char) (j : Nat) (h : j ≤ t.length) :
    skipClosingOrSpace t j ≤ t.length := by
  have := closingOrSpaceRunLen_le (t.drop j)
  simp only [List.length_drop] at this
  simp only [skipClosingOrSpace]
  omega

theorem drop_cons_imp_lt {t : List Char} {i : Nat} {c : Char} {rest : List Char}
    (h : t.drop i = c :: rest) : i < t.length := by
  have := congrArg List.length h
  simp only [List.length_drop, List.length_cons] at this
  omega

theorem drop_cons_succ {t : List Char} {i : Nat} {c : Char} {rest : List Char}
    (h : t.drop i = c :: rest) : t.drop (i + 1) = rest := by
  have h1 : t.drop (i + 1) = (t.drop i).drop 1 := by
    rw [List.drop_drop]
  rw [h1, h]
  rfl

theorem frbGo_le (t : List Char) (index : Nat) :
    ∀ l i, t.drop i = l → frbGo t index l i ≤ t.length := by
  intro l
  induction l with
  | nil =>
    intro i _
    simp [frbGo, jsLength_eq]
  | cons c rest ih =>
    intro i hdrop
    have hi : i < t.length := drop_cons_imp_lt hdrop
    simp only [frbGo]
    by_cases h1 : isSentenceTerminator c = true
    · simp only [h1, if_pos]
      exact skipClosingParen_le t (i + 1) (by omega)
    · simp only [h1, Bool.false_eq_true, if_false]
      by_cases h2 : (isClauseTerminator c && i - index ≥ 40) = true
      · simp only [h2, if_pos]
        exact skipClosingParen_le t (i + 1) (by omega)
      · simp only [h2, Bool.false_eq_true, if_false]
        by_cases h3 : (c = '\n' && rest.head? = some '\n') = true
        · simp only [h3, if_pos]
          omega
        · simp only [h3, Bool.false_eq_true, if_false]
          exact ih (i + 1) (drop_cons_succ hdrop)

theorem findRightBoundary_le (t : List Char) (index : Nat) :
    findRightBoundary t index ≤ t.length :=
  frbGo_le t index (t.drop index) index rfl

theorem trimLeftWsGo_ge (t : List Char) : ∀ fuel start, start ≤ trimLeftWsGo t fuel start := by
  intro fuel
  induction fuel with
  | zero => intro start; simp [trimLeftWsGo]
  | succ fuel ih =>
    intro start
    simp only [trimLeftWsGo]
    cases h : t.get? start with
    | none => simp
    | some c =>
      by_cases hw : isWsChar c
      · simp only [hw, if_pos]
        have := ih (start + 1)
        omega
      · simp [hw]

theorem trimLeftWsGo_le (t : List Char) : ∀ fuel start, trimLeftWsGo t fuel start ≤ start + fuel := by
  intro fuel
  induction fuel with
  | zero => intro start; simp [trimLeftWsGo]
  | succ fuel ih =>
    intro start
    simp only [trimLeftWsGo]
    cases h : t.get? start with
    | none => simp
    | some c =>
      by_cases hw : isWsChar c
      · simp only [hw, if_pos]
        have := ih (start + 1)
        omega
      · simp [hw]

theorem trimLeftOpenGo_ge (t : List Char) : ∀ fuel start, start ≤ trimLeftOpenGo t fuel start := by
  intro fuel
  induction fuel with
  | zero => intro start; simp [trimLeftOpenGo]
  | succ fuel ih =>
    intro start
    simp only [trimLeftOpenGo]
    cases h : t.get? start with
    | none => simp
    | some c =>
      by_cases hw : isOpeningQuoteOrParen c
      · simp only [hw, if_pos]
        have := ih (start + 1)
        omega
      · simp [hw]

theorem trimLeftOpenGo_le (t : List Char) :
    ∀ fuel start, trimLeftOpenGo t fuel start ≤ start + fuel := by
  intro fuel
  induction fuel with
  | zero => intro start; simp [trimLeftOpenGo]
  | succ fuel ih =>
    intro start
    simp only [trimLeftOpenGo]
    cases h : t.get? start with
    | none => simp
    | some c =>
      by_cases hw : isOpeningQuoteOrParen c
      · simp only [hw, if_pos]
        have := ih (start + 1)
        omega
      · simp [hw]

theorem trimRightWsGo_le (t : List Char) : ∀ fuel stop, trimRightWsGo t fuel stop ≤ stop := by
  intro fuel
  induction fuel with
  | zero => intro stop; simp [trimRightWsGo]
  | succ fuel ih =>
    intro stop
    simp only [trimRightWsGo]
    cases h : t.get? (stop - 1) with
    | none => simp
    | some c =>
      by_cases hw : isWsChar c
      · simp only [hw, if_pos]
        have := ih (stop - 1)
        omega
      · simp [hw]

theorem trimRightCloseGo_le (t : List Char) : ∀ fuel stop, trimRightCloseGo t fuel stop ≤ stop := by
  intro fuel
  induction fuel with
  | zero => intro stop; simp [trimRightCloseGo]
  | succ fuel ih =>
    intro stop
    simp only [trimRightCloseGo]
    cases h : t.get? (stop - 1) with
    | none => simp
    | some c =>
      by_cases hw : isClosingQuoteOrParen c
      · simp only [hw, if_pos]
        have := ih (stop - 1)
        omega
      · simp [hw]

theorem trimSoft_start_ge (t : List Char) (start stop : Nat) :
    start ≤ (trimSoft t start stop).start := by
  simp only [trimSoft, trimLeftWsLoop, trimLeftOpenLoop]
  have h1 := trimLeftWsGo_ge t (stop - start) start
  have h2 := trimLeftOpenGo_ge t (stop - trimLeftWsGo t (stop - start) start)
    (trimLeftWsGo t (stop - start) start)
  omega

theorem trimSoft_stop_le (t : List Char) (start stop : Nat) :
    (trimSoft t start stop).stop ≤ stop := by
  simp only [trimSoft, trimLeftWsLoop, trimLeftOpenLoop, trimRightWsLoop, trimRightCloseLoop]
  set s2 := trimLeftOpenGo t (stop - trimLeftWsGo t (stop - start) start)
    (trimLeftWsGo t (stop - start) start)
  have h3 := trimRightWsGo_le t (stop - s2) stop
  have h4 := trimRightCloseGo_le t (trimRightWsGo t (stop - s2) stop - s2)
    (trimRightWsGo t (stop - s2) stop)
  omega

theorem trimSoft_sub_le (t : List Char) (start stop : Nat) :
    (trimSoft t start stop).stop - (trimSoft t start stop).start ≤ stop - start := by
  have h1 := trimSoft_start_ge t start stop
  have h2 := trimSoft_stop_le t start stop
  omega

theorem normalizeSpan_stop_le (t : List Char) (sp : Span) :
    (normalizeSpanToSentenceOrClause t sp).stop ≤ t.length := by
  simp only [normalizeSpanToSentenceOrClause]
  have h1 := trimSoft_stop_le t (findLeftBoundary t sp.start) (findRightBoundary t sp.stop)
  have h2 := findRightBoundary_le t sp.stop
  omega


/-! ## Clamp bounds -/

theorem closingParenRunLen_spec (l : List Char) :
    ∀ d, d < closingParenRunLen l →
      ∃ c, l.get? d = some c ∧ isClosingQuoteOrParen c = true := by
  induction l with
  | nil => intro d hd; simp [closingParenRunLen] at hd
  | cons c r ih =>
    intro d hd
    by_cases hcs : isClosingQuoteOrParen c
    · match d with
      | 0 => exact ⟨c, by simp, hcs⟩
      | d + 1 =>
        simp only [closingParenRunLen, if_pos hcs] at hd
        have := ih d (by omega)
        simpa using this
    · simp [closingParenRunLen, hcs] at hd

theorem cp_not_ws {c : Char} (h : isClosingQuoteOrParen c = true) : isWsChar c = false := by
  simp only [isClosingQuoteOrParen, Bool.or_eq_true, decide_eq_true_eq, or_assoc] at h
  rcases h with h | h | h | h | h | h | h <;> subst h <;> decide

theorem term_not_ws {c : Char} (h : isSentenceTerminator c = true) : isWsChar c = false := by
  simp only [isSentenceTerminator, Bool.or_eq_true, decide_eq_true_eq, or_assoc] at h
  rcases h with h | h | h | h <;> subst h <;> decide

theorem term_not_cp {c : Char} (h : isSentenceTerminator c = true) :
    isClosingQuoteOrParen c = false := by
  simp only [isSentenceTerminator, Bool.or_eq_true, decide_eq_true_eq, or_assoc] at h
  rcases h with h | h | h | h <;> subst h <;> decide

theorem fftGo_le (t : List Char) (limit : Nat) (hlim : limit ≤ t.length) :
    ∀ fuel i, fftGo t limit fuel i ≤ t.length := by
  intro fuel
  induction fuel with
  | zero => intro i; simpa [fftGo] using hlim
  | succ fuel ih =>
    intro i
    simp only [fftGo]
    cases h : t.get? i with
    | none => exact ih (i + 1)
    | some c =>
      by_cases ht : isSentenceTerminator c = true
      · simp only [ht, if_pos]
        have hi : i < t.length := by
          by_contra hc
          push_neg at hc
          rw [List.get?_eq_none.mpr (by omega)] at h
          cases h
        exact skipClosingParen_le t (i + 1) (by omega)
      · simp only [ht, Bool.false_eq_true, if_false]
        exact ih (i + 1)

theorem fftGo_pos (t : List Char) (limit : Nat) :
    ∀ fuel i, fftGo t limit fuel i = limit ∨ i < fftGo t limit fuel i := by
  intro fuel
  induction fuel with
  | zero => intro i; left; rfl
  | succ fuel ih =>
    intro i
    simp only [fftGo]
    cases h : t.get? i with
    | none =>
      show fftGo t limit fuel (i + 1) = limit ∨ i < fftGo t limit fuel (i + 1)
      rcases ih (i + 1) with h1 | h1
      · left; exact h1
      · right; omega
    | some c =>
      by_cases ht : isSentenceTerminator c = true
      · simp only [ht, if_pos]
        right
        have := skipClosingParen_ge t (i + 1)
        omega
      · simp only [ht, Bool.false_eq_true, if_false]
        rcases ih (i + 1) with h1 | h1
        · left; exact h1
        · right; omega

theorem fftGo_spec (t : List Char) (limit : Nat) :
    ∀ fuel i, i + fuel ≤ limit →
      fftGo t limit fuel i = limit ∨
      ∃ k c, i ≤ k ∧ k < limit ∧ t.get? k = some c ∧ isSentenceTerminator c = true ∧
        fftGo t limit fuel i = skipClosingParen t (k + 1) := by
  intro fuel
  induction fuel with
  | zero => intro i _; left; rfl
  | succ fuel ih =>
    intro i hfuel
    simp only [fftGo]
    cases h : t.get? i with
    | none =>
      rcases ih (i + 1) (by omega) with h1 | ⟨k, c, hk1, hk2, hk3, hk4, hk5⟩
      · left; exact h1
      · right; exact ⟨k, c, by omega, hk2, hk3, hk4, hk5⟩
    | some c =>
      by_cases ht : isSentenceTerminator c = true
      · simp only [ht, if_pos]
        right
        exact ⟨i, c, le_rfl, by omega, h, ht, rfl⟩
      · simp only [ht, Bool.false_eq_true, if_false]
        rcases ih (i + 1) (by omega) with h1 | ⟨k, c', hk1, hk2, hk3, hk4, hk5⟩
        · left; exact h1
        · right; exact ⟨k, c', by omega, hk2, hk3, hk4, hk5⟩

/-- If the character left of `stop` is not whitespace (or is absent), the
right whitespace trim is a no-op. -/
theorem trimRightWsGo_stop (t : List Char) (fuel stop : Nat)
    (h : ∀ c, t.get? (stop - 1) = some c → isWsChar c = false) :
    trimRightWsGo t fuel stop = stop := by
  cases fuel with
  | zero => rfl
  | succ fuel =>
    simp only [trimRightWsGo]
    cases hc : t.get? (stop - 1) with
    | none => rfl
    | some c => simp [h c hc]

/-- Stripping a run of closing characters: if every position in `[m, stop₀)`
holds a closing character, the close-trim ends at or below `max m (stop - fuel)`. -/
theorem trimRightCloseGo_run_bound (t : List Char) (m stop₀ : Nat)
    (hlen : stop₀ ≤ t.length)
    (hrun : ∀ p, m ≤ p → p < stop₀ → ∃ c, t.get? p = some c ∧ isClosingQuoteOrParen c = true) :
    ∀ fuel stop, stop ≤ stop₀ →
      trimRightCloseGo t fuel stop ≤ max m (stop - fuel) := by
  intro fuel
  induction fuel with
  | zero =>
    intro stop hstop
    simp [trimRightCloseGo]
  | succ fuel ih =>
    intro stop hstop
    simp only [trimRightCloseGo]
    cases hc : t.get? (stop - 1) with
    | none =>
      have hlen2 : t.length ≤ stop - 1 := by
        by_contra hcon
        push_neg at hcon
        rw [List.get?_eq_get hcon] at hc
        cases hc
      have : stop = 0 := by omega
      subst this
      simp
    | some c =>
      by_cases hcl : isClosingQuoteOrParen c = true
      · simp only [hcl, if_pos]
        have := ih (stop - 1) (by omega)
        omega
      · simp only [hcl, Bool.false_eq_true, if_false]
        by_cases hm : m ≤ stop - 1
        · by_cases hs : stop - 1 < stop₀
          · obtain ⟨c', hc', hcl'⟩ := hrun (stop - 1) hm hs
            rw [hc] at hc'
            cases hc'
            rw [hcl'] at hcl
            cases hcl rfl
          · omega
        · omega


theorem clampSpanLength_stop_le (t : List Char) (sp : Span) (h : sp.stop ≤ t.length) :
    (clampSpanLength t sp MIN_PHRASE_LEN MAX_PHRASE_LEN).stop ≤ t.length := by
  have hfrb := findRightBoundary_le t sp.stop
  have hfft : findFirstTerminatorAfter t sp.start MAX_PHRASE_LEN ≤ t.length := by
    simp only [findFirstTerminatorAfter, jsLength_eq]
    exact fftGo_le t _ (Nat.min_le_left _ _) _ _
  simp only [clampSpanLength]
  split
  · split
    · exact le_trans (trimSoft_stop_le t _ _) hfrb
    · split
      · exact le_trans (trimSoft_stop_le t _ _) h
      · exact le_trans (trimSoft_stop_le t _ _) h
  · split
    · split
      · exact le_trans (trimSoft_stop_le t _ _) hfft
      · exact le_trans (trimSoft_stop_le t _ _) h
    · exact le_trans (trimSoft_stop_le t _ _) h

/-- The central clamp bound: on spans within the text, the clamper's output
never exceeds `MAX_PHRASE_LEN` — the soft trim strips any trailing closing
punctuation that `findFirstTerminatorAfter` may have appended past the
window. -/
theorem clampSpanLength_len_le (t : List Char) (sp : Span) (h : sp.stop ≤ t.length) :
    (clampSpanLength t sp MIN_PHRASE_LEN MAX_PHRASE_LEN).stop -
      (clampSpanLength t sp MIN_PHRASE_LEN MAX_PHRASE_LEN).start ≤ MAX_PHRASE_LEN := by
  simp only [clampSpanLength]
  split
  case isTrue hlt =>
    split
    case isTrue hok =>
      have hsub := trimSoft_sub_le t sp.start (findRightBoundary t sp.stop)
      simp only [Bool.and_eq_true, decide_eq_true_eq] at hok
      simp only [MAX_PHRASE_LEN] at *
      omega
    case isFalse =>
      split
      case isTrue hok2 =>
        have hsub := trimSoft_sub_le t (findLeftBoundary t sp.start) sp.stop
        simp only [Bool.and_eq_true, decide_eq_true_eq] at hok2
        simp only [MAX_PHRASE_LEN] at *
        omega
      case isFalse =>
        have hsub := trimSoft_sub_le t sp.start sp.stop
        simp only [MIN_PHRASE_LEN] at hlt
        simp only [MAX_PHRASE_LEN]
        omega
  case isFalse hge =>
    split
    case isTrue hbig =>
      have hstartlt : sp.start < t.length := by
        simp only [MAX_PHRASE_LEN] at hbig
        omega
      have hlim : sp.start < min t.length (sp.start + MAX_PHRASE_LEN) := by
        simp only [MAX_PHRASE_LEN]
        omega
      split
      case isTrue hcut =>
        -- cut at the first terminator (or the hard cap)
        have hspec := fftGo_spec t (min t.length (sp.start + MAX_PHRASE_LEN))
          (min t.length (sp.start + MAX_PHRASE_LEN) - sp.start) sp.start (by omega)
        rw [show findFirstTerminatorAfter t sp.start MAX_PHRASE_LEN =
            fftGo t (min t.length (sp.start + MAX_PHRASE_LEN))
              (min t.length (sp.start + MAX_PHRASE_LEN) - sp.start) sp.start by
          simp [findFirstTerminatorAfter, jsLength_eq]]
        rcases hspec with hcl | ⟨k, c, hk1, hk2, hk3, hk4, hk5⟩
        · rw [hcl]
          have hsub := trimSoft_sub_le t sp.start (min t.length (sp.start + MAX_PHRASE_LEN))
          simp only [MAX_PHRASE_LEN] at *
          omega
        · rw [hk5]
          -- cut = skipClosingParen t (k+1); analyse the trim
          set cut := skipClosingParen t (k + 1) with hcutdef
          have hklen : k < t.length := lt_of_lt_of_le hk2 (Nat.min_le_left _ _)
          have hcutle : cut ≤ t.length := skipClosingParen_le t (k + 1) (by omega)
          have hcutge : k + 1 ≤ cut := skipClosingParen_ge t (k + 1)
          simp only [trimSoft, trimLeftWsLoop, trimLeftOpenLoop, trimRightWsLoop,
            trimRightCloseLoop]
          set s1 := trimLeftWsGo t (cut - sp.start) sp.start with hs1
          set s2 := trimLeftOpenGo t (cut - s1) s1 with hs2
          have hs1ge : sp.start ≤ s1 := trimLeftWsGo_ge t _ _
          have hs1le : s1 ≤ sp.start + (cut - sp.start) := trimLeftWsGo_le t _ _
          have hs2ge : s1 ≤ s2 := trimLeftOpenGo_ge t _ _
          have hs2le : s2 ≤ s1 + (cut - s1) := trimLeftOpenGo_le t _ _
          have hs2cut : s2 ≤ cut := by omega
          -- the whitespace right-trim is a no-op at `cut`
          have he1 : trimRightWsGo t (cut - s2) cut = cut := by
            apply trimRightWsGo_stop
            intro c' hc'
            rcases Nat.eq_or_lt_of_le hcutge with heq | hlt2
            · -- empty closing run: the char before cut is the terminator
              have : cut - 1 = k := by omega
              rw [this] at hc'
              rw [hk3] at hc'
              cases hc'
              exact term_not_ws hk4
            · -- non-empty run: the char before cut is a closing character
              have hd : cut - 1 - (k + 1) < closingParenRunLen (t.drop (k + 1)) := by
                simp only [hcutdef, skipClosingParen] at hlt2 ⊢
                omega
              obtain ⟨c'', hc'', hcl''⟩ := closingParenRunLen_spec (t.drop (k + 1)) _ hd
              rw [List.get?_drop] at hc''
              have : k + 1 + (cut - 1 - (k + 1)) = cut - 1 := by omega
              rw [this] at hc''
              rw [hc''] at hc'
              cases hc'
              exact cp_not_ws hcl''
          rw [he1]
          -- the closing-character right-trim strips back to the terminator
          have he2 := trimRightCloseGo_run_bound t (k + 1) cut hcutle
            (by
              intro p hp1 hp2
              have hd : p - (k + 1) < closingParenRunLen (t.drop (k + 1)) := by
                simp only [hcutdef, skipClosingParen] at hp2
                omega
              obtain ⟨c'', hc'', hcl''⟩ := closingParenRunLen_spec (t.drop (k + 1)) _ hd
              rw [List.get?_drop] at hc''
              have : k + 1 + (p - (k + 1)) = p := by omega
              rw [this] at hc''
              exact ⟨c'', hc'', hcl''⟩)
            (cut - s2) cut le_rfl
          have hk2' : k + 1 ≤ sp.start + MAX_PHRASE_LEN :=
            le_trans hk2 (Nat.min_le_right _ _)
          simp only [MAX_PHRASE_LEN] at *
          omega
      case isFalse hcut =>
        -- `cut > start` always holds here
        exfalso
        rcases fftGo_pos t (min t.length (sp.start + MAX_PHRASE_LEN))
            (min t.length (sp.start + MAX_PHRASE_LEN) - sp.start) sp.start with hp | hp
        · apply hcut
          rw [show findFirstTerminatorAfter t sp.start MAX_PHRASE_LEN =
              fftGo t (min t.length (sp.start + MAX_PHRASE_LEN))
                (min t.length (sp.start + MAX_PHRASE_LEN) - sp.start) sp.start by
            simp [findFirstTerminatorAfter, jsLength_eq]]
          omega
        · apply hcut
          rw [show findFirstTerminatorAfter t sp.start MAX_PHRASE_LEN =
              fftGo t (min t.length (sp.start + MAX_PHRASE_LEN))
                (min t.length (sp.start + MAX_PHRASE_LEN) - sp.start) sp.start by
            simp [findFirstTerminatorAfter, jsLength_eq]]
          omega
    case isFalse hmid =>
      have hsub := trimSoft_sub_le t sp.start sp.stop
      simp only [MAX_PHRASE_LEN] at *
      omega


/-! ## Emission-site lemmas -/

theorem overlaps_comm (a b : Span) : overlaps a b = overlaps b a := by
  simp only [overlaps]
  rw [Bool.and_comm]

theorem spansPairwiseFree_iff (l : List KeyPoint) :
    spansPairwiseFree l = true ↔ PairwiseFree l := by
  induction l with
  | nil => simp [spansPairwiseFree, PairwiseFree]
  | cons kp rest ih =>
    simp only [spansPairwiseFree, Bool.and_eq_true, List.all_eq_true, PairwiseFree,
      List.pairwise_cons]
    rw [← PairwiseFree, ← ih]
    constructor
    · rintro ⟨h1, h2⟩
      exact ⟨fun x hx => by simpa using h1 x hx, h2⟩
    · rintro ⟨h1, h2⟩
      exact ⟨fun x hx => by simpa using h1 x hx, h2⟩

theorem anchorSpan_stop_le (t : List Char) (sn en : Nat) :
    (anchorSpan t sn en).stop ≤ t.length :=
  clampSpanLength_stop_le t _ (normalizeSpan_stop_le t _)

theorem anchorSpan_len_le (t : List Char) (sn en : Nat) :
    (anchorSpan t sn en).stop - (anchorSpan t sn en).start ≤ MAX_PHRASE_LEN :=
  clampSpanLength_len_le t _ (normalizeSpan_stop_le t _)

theorem emit_good (t : List Char) (sp : Span) (imp : Importance) (cat : Category)
    (hstop : sp.stop ≤ t.length)
    (hsub : sp.stop - sp.start ≤ MAX_PHRASE_LEN)
    (hlen : MIN_PHRASE_LEN ≤ (jsTrim (slice t sp.start sp.stop)).length) :
    GoodKP t ⟨jsTrim (slice t sp.start sp.stop), sp.start, sp.stop, imp, cat⟩ := by
  refine ⟨rfl, hstop, ?_, hsub, hlen⟩
  have h1 := jsTrim_length_le (slice t sp.start sp.stop)
  have h2 := slice_length_le t sp.start sp.stop
  simp only [MIN_PHRASE_LEN] at *
  omega

theorem anchorOutcome_good (ph : AIKeyPhrase) (t : List Char) (taken : List Span)
    (kp : KeyPoint) (h : anchorOutcome ph t taken = some kp) :
    GoodKP t kp ∧ ∀ tk ∈ taken, overlaps tk (spanOf kp) = false := by
  cases hs : ph.startPos with
  | none =>
    simp only [anchorOutcome, hs] at h
    exact Option.noConfusion h
  | some s =>
    cases he : ph.endPos with
    | none =>
      simp only [anchorOutcome, hs, he] at h
      exact Option.noConfusion h
    | some e =>
      simp only [anchorOutcome, hs, he] at h
      split at h
      case isFalse => cases h
      case isTrue hcond =>
        split at h
        case isFalse => cases h
        case isTrue hslice =>
          split at h
          case isTrue => cases h
          case isFalse hnov =>
            split at h
            case isFalse => cases h
            case isTrue hlen =>
              rw [Option.some_inj] at h
              subst h
              constructor
              · apply emit_good
                · exact anchorSpan_stop_le t _ _
                · exact anchorSpan_len_le t _ _
                · rw [jsLength_eq] at hlen
                  exact hlen
              · intro tk htk
                rw [Bool.not_eq_true] at hnov
                have := List.any_eq_false.mp hnov tk htk
                simpa [spanOf] using this

theorem globalSearchLoop_good (ph : AIKeyPhrase) (t : List Char) (taken : List Span)
    (raw : List Char) :
    ∀ fuel pos kp, globalSearchLoop ph t taken raw fuel pos = some kp →
      GoodKP t kp ∧ ∀ tk ∈ taken, overlaps tk (spanOf kp) = false := by
  intro fuel
  induction fuel with
  | zero => intro pos kp h; cases h
  | succ fuel ih =>
    intro pos kp h
    cases hidx : indexOfFrom t raw pos with
    | none =>
      simp only [globalSearchLoop, hidx] at h
      exact Option.noConfusion h
    | some idx =>
      simp only [globalSearchLoop, hidx] at h
      split at h
      · exact ih _ _ h
      case isFalse hnov =>
        split at h
        case isTrue hlen =>
          rw [Option.some_inj] at h
          subst h
          constructor
          · apply emit_good
            · exact anchorSpan_stop_le t _ _
            · exact anchorSpan_len_le t _ _
            · rw [jsLength_eq] at hlen
              exact hlen
          · intro tk htk
            rw [Bool.not_eq_true] at hnov
            have := List.any_eq_false.mp hnov tk htk
            simpa [spanOf] using this
        case isFalse => exact ih _ _ h

theorem placeAndNormalizePhrase_good (ph : AIKeyPhrase) (t : List Char) (taken : List Span)
    (kp : KeyPoint) (h : placeAndNormalizePhrase ph t taken = some kp) :
    GoodKP t kp ∧ ∀ tk ∈ taken, overlaps tk (spanOf kp) = false := by
  simp only [placeAndNormalizePhrase] at h
  split at h
  · cases h
  · cases hao : anchorOutcome ph t taken with
    | some kp' =>
      rw [hao] at h
      rw [Option.some_inj] at h
      subst h
      exact anchorOutcome_good ph t taken kp' hao
    | none =>
      rw [hao] at h
      exact globalSearchLoop_good ph t taken _ _ _ kp h


/-! ## Resolver loop invariant -/

theorem placeLoop_good (t : List Char) :
    ∀ phrases kps taken,
      (∀ kp ∈ kps, GoodKP t kp) → PairwiseFree kps → (∀ kp ∈ kps, spanOf kp ∈ taken) →
      (∀ kp ∈ (placeLoop t phrases kps taken).1, GoodKP t kp) ∧
      PairwiseFree (placeLoop t phrases kps taken).1 ∧
      (∀ kp ∈ (placeLoop t phrases kps taken).1, spanOf kp ∈ (placeLoop t phrases kps taken).2) := by
  intro phrases
  induction phrases with
  | nil =>
    intro kps taken hg hpw hmem
    exact ⟨hg, hpw, hmem⟩
  | cons p rest ih =>
    intro kps taken hg hpw hmem
    simp only [placeLoop, isValidPhraseSkeleton, if_true]
    cases hp : placeAndNormalizePhrase p t taken with
    | none => exact ih kps taken hg hpw hmem
    | some kp =>
      obtain ⟨hkpg, hkpnov⟩ := placeAndNormalizePhrase_good p t taken kp hp
      apply ih
      · intro x hx
        rcases List.mem_append.mp hx with hx | hx
        · exact hg x hx
        · rw [List.mem_singleton.mp hx]
          exact hkpg
      · rw [PairwiseFree, List.pairwise_append]
        refine ⟨hpw, List.pairwise_singleton _ _, ?_⟩
        intro a ha b hb
        rw [List.mem_singleton.mp hb]
        exact hkpnov (spanOf a) (hmem a ha)
      · intro x hx
        rcases List.mem_append.mp hx with hx | hx
        · exact List.mem_append_left _ (hmem x hx)
        · rw [List.mem_singleton.mp hx]
          exact List.mem_append_right _ (by simp [spanOf])

/-! ## indexOf bounds -/

theorem isPrefixOf_length_le :
    ∀ (pat rem : List Char), pat.isPrefixOf rem = true → pat.length ≤ rem.length := by
  intro pat
  induction pat with
  | nil => intro rem _; simp
  | cons a as ih =>
    intro rem h
    cases rem with
    | nil => simp [List.isPrefixOf] at h
    | cons b bs =>
      simp only [List.isPrefixOf, Bool.and_eq_true] at h
      have := ih bs h.2
      simp only [List.length_cons]
      omega

theorem indexOfAux_bound (pat : List Char) :
    ∀ rem i k, indexOfAux pat rem i = some k → i ≤ k ∧ k - i + pat.length ≤ rem.length := by
  intro rem
  induction rem with
  | nil =>
    intro i k h
    simp only [indexOfAux] at h
    split at h
    case isTrue hpre =>
      rw [Option.some_inj] at h
      subst h
      have := isPrefixOf_length_le pat [] hpre
      simp at this
      simp [this]
    case isFalse => cases h
  | cons b bs ih =>
    intro i k h
    simp only [indexOfAux] at h
    split at h
    case isTrue hpre =>
      rw [Option.some_inj] at h
      subst h
      have := isPrefixOf_length_le pat (b :: bs) hpre
      simp only [List.length_cons] at *
      omega
    case isFalse =>
      have := ih (i + 1) k h
      simp only [List.length_cons]
      omega

theorem indexOfFrom_zero_bound {t pat : List Char} {k : Nat}
    (h : indexOfFrom t pat 0 = some k) : k + pat.length ≤ t.length := by
  have := indexOfAux_bound pat (t.drop 0) 0 k h
  simp only [List.drop_zero] at this
  omega

/-! ## Fallback extraction invariant -/

theorem tryAdd_inv (t : List Char) (base : List Span) (st : FBState) (a b : Nat)
    (imp : Importance) (cat : Category) (hb : b ≤ t.length) (hinv : FBInv t base st) :
    FBInv t base (tryAdd t st a b imp cat).1 := by
  obtain ⟨hg, hpw, hmem, hbase, hbnov⟩ := hinv
  have hsp_stop : (clampSpanLength t ⟨a, b⟩ MIN_PHRASE_LEN MAX_PHRASE_LEN).stop ≤ t.length :=
    clampSpanLength_stop_le t ⟨a, b⟩ hb
  have hsp_len : (clampSpanLength t ⟨a, b⟩ MIN_PHRASE_LEN MAX_PHRASE_LEN).stop -
      (clampSpanLength t ⟨a, b⟩ MIN_PHRASE_LEN MAX_PHRASE_LEN).start ≤ MAX_PHRASE_LEN :=
    clampSpanLength_len_le t ⟨a, b⟩ hb
  simp only [tryAdd]
  split
  case isTrue => exact ⟨hg, hpw, hmem, hbase, hbnov⟩
  case isFalse hnov =>
    split
    case isFalse => exact ⟨hg, hpw, hmem, hbase, hbnov⟩
    case isTrue hlen =>
      rw [Bool.not_eq_true] at hnov
      have hnov' := List.any_eq_false.mp hnov
      refine ⟨?_, ?_, ?_, ?_, ?_⟩
      · intro x hx
        rcases List.mem_append.mp hx with hx | hx
        · exact hg x hx
        · rw [List.mem_singleton.mp hx]
          apply emit_good t _ imp cat hsp_stop hsp_len
          rw [jsLength_eq] at hlen
          exact hlen
      · rw [PairwiseFree, List.pairwise_append]
        refine ⟨hpw, List.pairwise_singleton _ _, ?_⟩
        intro x hx y hy
        rw [List.mem_singleton.mp hy]
        simpa [spanOf] using hnov' (spanOf x) (hmem x hx)
      · intro x hx
        rcases List.mem_append.mp hx with hx | hx
        · exact List.mem_append_left _ (hmem x hx)
        · rw [List.mem_singleton.mp hx]
          exact List.mem_append_right _ (by simp [spanOf])
      · intro sp hsp
        exact List.mem_append_left _ (hbase sp hsp)
      · intro x hx sp hsp
        rcases List.mem_append.mp hx with hx | hx
        · exact hbnov x hx sp hsp
        · rw [List.mem_singleton.mp hx]
          simpa [spanOf] using hnov' sp (hbase sp hsp)

theorem stage1Loop_inv (t : List Char) (base : List Span) (mp : Nat) :
    ∀ items st, FBInv t base st → FBInv t base (stage1Loop t mp items st) := by
  intro items
  induction items with
  | nil => intro st h; exact h
  | cons s rest ih =>
    intro st h
    simp only [stage1Loop]
    split
    case isFalse => exact ih st h
    case isTrue hlen =>
      split
      case h_2 => exact ih st h
      case h_1 idx hidx =>
        have hb : idx + jsLength s ≤ t.length := by
          rw [jsLength_eq]
          exact indexOfFrom_zero_bound hidx
        have hinv' := tryAdd_inv t base st idx (idx + jsLength s) .high .fact hb h
        split
        · exact hinv'
        · exact ih _ hinv'

theorem stage2Loop_inv (t : List Char) (base : List Span) (mp : Nat) :
    ∀ items st, FBInv t base st → FBInv t base (stage2Loop t mp items st) := by
  intro items
  induction items with
  | nil => intro st h; exact h
  | cons q rest ih =>
    intro st h
    simp only [stage2Loop]
    split
    case h_2 => exact ih st h
    case h_1 idx hidx =>
      have hb : idx + jsLength q ≤ t.length := by
        rw [jsLength_eq]
        exact indexOfFrom_zero_bound hidx
      have hinv' := tryAdd_inv t base st idx (idx + jsLength q) .high .definition hb h
      split
      · exact hinv'
      · exact ih _ hinv'

theorem stage3Loop_inv (t : List Char) (base : List Span) (mp : Nat) :
    ∀ items st, FBInv t base st → FBInv t base (stage3Loop t mp items st) := by
  intro items
  induction items with
  | nil => intro st h; exact h
  | cons p rest ih =>
    intro st h
    simp only [stage3Loop]
    split
    case h_2 => exact ih st h
    case h_1 sSent hfind =>
      split
      case h_2 => exact ih st h
      case h_1 idx hidx =>
        have hb : idx + jsLength sSent ≤ t.length := by
          rw [jsLength_eq]
          exact indexOfFrom_zero_bound hidx
        have hinv' := tryAdd_inv t base st idx (idx + jsLength sSent) .medium .fact hb h
        split
        · exact hinv'
        · exact ih _ hinv'

/-! ## Dedup and sort lemmas -/

theorem dedupFirstsAux_sublist : ∀ (l : List KeyPoint) (seen : List (List Char)),
    List.Sublist (dedupFirstsAux l seen) l := by
  intro l
  induction l with
  | nil => intro seen; simp [dedupFirstsAux]
  | cons kp rest ih =>
    intro seen
    simp only [dedupFirstsAux]
    split
    · exact List.Sublist.cons kp (ih seen)
    · exact List.Sublist.cons₂ kp (ih _)

theorem insertByStart_perm (kp : KeyPoint) :
    ∀ l, (insertByStart kp l).Perm (kp :: l) := by
  intro l
  induction l with
  | nil => simp [insertByStart]
  | cons x xs ih =>
    simp only [insertByStart]
    split
    · exact (List.Perm.cons x ih).trans (List.Perm.swap kp x xs)
    · exact List.Perm.refl _

theorem sortByStart_perm (l : List KeyPoint) : (sortByStart l).Perm l := by
  suffices h : ∀ acc, (l.foldl (fun a k => insertByStart k a) acc).Perm (l ++ acc) by
    have := h []
    simpa [sortByStart] using this
  induction l with
  | nil => intro acc; simp
  | cons k rest ih =>
    intro acc
    simp only [List.foldl_cons]
    refine (ih (insertByStart k acc)).trans ?_
    refine (List.Perm.append_left rest (insertByStart_perm k acc)).trans ?_
    exact List.perm_middle

theorem mem_insertByStart {kp x : KeyPoint} {l : List KeyPoint} :
    x ∈ insertByStart kp l ↔ x = kp ∨ x ∈ l := by
  rw [(insertByStart_perm kp l).mem_iff]
  simp

theorem insertByStart_pairwise (kp : KeyPoint) :
    ∀ l, List.Pairwise (fun a b => a.startPos ≤ b.startPos) l →
      List.Pairwise (fun a b => a.startPos ≤ b.startPos) (insertByStart kp l) := by
  intro l
  induction l with
  | nil => intro _; simp [insertByStart]
  | cons x xs ih =>
    intro h
    rw [List.pairwise_cons] at h
    simp only [insertByStart]
    split
    case isTrue hle =>
      rw [List.pairwise_cons]
      constructor
      · intro y hy
        rcases mem_insertByStart.mp hy with hy | hy
        · rw [hy]; exact hle
        · exact h.1 y hy
      · exact ih h.2
    case isFalse hgt =>
      push_neg at hgt
      rw [List.pairwise_cons]
      constructor
      · intro y hy
        rcases List.mem_cons.mp hy with hy | hy
        · rw [hy]; omega
        · have := h.1 y hy
          omega
      · rw [List.pairwise_cons]
        exact h

theorem sortByStart_pairwise (l : List KeyPoint) :
    List.Pairwise (fun a b => a.startPos ≤ b.startPos) (sortByStart l) := by
  suffices h : ∀ acc, List.Pairwise (fun a b => a.startPos ≤ b.startPos) acc →
      List.Pairwise (fun a b => a.startPos ≤ b.startPos)
        (l.foldl (fun a k => insertByStart k a) acc) by
    exact h [] (List.Pairwise.nil)
  induction l with
  | nil => intro acc h; exact h
  | cons k rest ih =>
    intro acc h
    simp only [List.foldl_cons]
    exact ih _ (insertByStart_pairwise k acc h)

theorem overlapsFree_symmetric :
    Symmetric (fun a b : KeyPoint => overlaps (spanOf a) (spanOf b) = false) := by
  intro a b h
  rw [overlaps_comm]
  exact h

theorem deduplicateKeyPoints_mem {l : List KeyPoint} {kp : KeyPoint}
    (h : kp ∈ deduplicateKeyPoints l) : kp ∈ l := by
  simp only [deduplicateKeyPoints] at h
  have h1 := (sortByStart_perm (dedupFirstsAux l [])).mem_iff.mp h
  exact (dedupFirstsAux_sublist l []).subset h1

theorem deduplicateKeyPoints_pairwiseFree {l : List KeyPoint} (h : PairwiseFree l) :
    PairwiseFree (deduplicateKeyPoints l) := by
  simp only [deduplicateKeyPoints, PairwiseFree] at *
  have hd := List.Pairwise.sublist (dedupFirstsAux_sublist l []) h
  exact ((sortByStart_perm (dedupFirstsAux l [])).pairwise_iff
    (fun hab => overlapsFree_symmetric hab)).mpr hd

theorem deduplicateKeyPoints_sorted (l : List KeyPoint) :
    List.Pairwise (fun a b => a.startPos ≤ b.startPos) (deduplicateKeyPoints l) :=
  sortByStart_pairwise (dedupFirstsAux l [])

theorem extractFallbackKeyPoints_good (t : List Char) (mp : Nat) (base : List Span) :
    (∀ kp ∈ extractFallbackKeyPoints t mp base, GoodKP t kp) ∧
    PairwiseFree (extractFallbackKeyPoints t mp base) ∧
    (∀ kp ∈ extractFallbackKeyPoints t mp base, ∀ sp ∈ base,
      overlaps sp (spanOf kp) = false) := by
  have key : ∀ st3 : FBState, FBInv t base st3 →
      (∀ kp ∈ (deduplicateKeyPoints st3.keyPoints).take mp, GoodKP t kp) ∧
      PairwiseFree ((deduplicateKeyPoints st3.keyPoints).take mp) ∧
      (∀ kp ∈ (deduplicateKeyPoints st3.keyPoints).take mp, ∀ sp ∈ base,
        overlaps sp (spanOf kp) = false) := by
    intro st3 h3
    obtain ⟨hg, hpw, _, _, hbnov⟩ := h3
    refine ⟨?_, ?_, ?_⟩
    · intro kp hkp
      exact hg kp (deduplicateKeyPoints_mem (List.mem_of_mem_take hkp))
    · exact List.Pairwise.sublist (List.take_sublist _ _)
        (deduplicateKeyPoints_pairwiseFree hpw)
    · intro kp hkp sp hsp
      exact hbnov kp (deduplicateKeyPoints_mem (List.mem_of_mem_take hkp)) sp hsp
  have hinit : FBInv t base ⟨[], base⟩ := by
    refine ⟨?_, ?_, ?_, ?_, ?_⟩ <;> simp [PairwiseFree]
  have h1 := stage1Loop_inv t base mp (splitIntoSentences t) ⟨[], base⟩ hinit
  have h2 : FBInv t base
      (if (stage1Loop t mp (splitIntoSentences t) ⟨[], base⟩).keyPoints.length < mp
        then stage2Loop t mp (quoteCandidates t)
          (stage1Loop t mp (splitIntoSentences t) ⟨[], base⟩)
        else stage1Loop t mp (splitIntoSentences t) ⟨[], base⟩) := by
    split
    · exact stage2Loop_inv t base mp (quoteCandidates t) _ h1
    · exact h1
  have h3 : FBInv t base
      (if (if (stage1Loop t mp (splitIntoSentences t) ⟨[], base⟩).keyPoints.length < mp
            then stage2Loop t mp (quoteCandidates t)
              (stage1Loop t mp (splitIntoSentences t) ⟨[], base⟩)
            else stage1Loop t mp (splitIntoSentences t) ⟨[], base⟩).keyPoints.length < mp
        then stage3Loop t mp
          (((splitOnBlankLines t).filter (fun p => jsLength (jsTrim p) > 50)).take 6)
          (if (stage1Loop t mp (splitIntoSentences t) ⟨[], base⟩).keyPoints.length < mp
            then stage2Loop t mp (quoteCandidates t)
              (stage1Loop t mp (splitIntoSentences t) ⟨[], base⟩)
            else stage1Loop t mp (splitIntoSentences t) ⟨[], base⟩)
        else (if (stage1Loop t mp (splitIntoSentences t) ⟨[], base⟩).keyPoints.length < mp
            then stage2Loop t mp (quoteCandidates t)
              (stage1Loop t mp (splitIntoSentences t) ⟨[], base⟩)
            else stage1Loop t mp (splitIntoSentences t) ⟨[], base⟩)) := by
    split
    case isTrue hc1 =>
      rw [if_pos hc1] at h2
      split
      · exact stage3Loop_inv t base mp _ _ h2
      · exact h2
    case isFalse hc1 =>
      rw [if_neg hc1] at h2
      exact h2
  exact key _ h3

theorem processSummaryResponse_good (resp : AIResponse) (t : List Char) (r : SummaryResult)
    (h : processSummaryResponse resp t = .ok r) :
    (∀ kp ∈ r.keyPoints, GoodKP t kp) ∧ PairwiseFree r.keyPoints := by
  simp only [processSummaryResponse] at h
  split at h
  · exact Except.noConfusion h
  · rw [Except.ok.injEq] at h
    subst h
    have hpl := placeLoop_good t resp.keyPhrases [] [] (by simp) (by simp [PairwiseFree]) (by simp)
    obtain ⟨hg, hpw, hmem⟩ := hpl
    dsimp only
    split
    case isTrue =>
      obtain ⟨hfg, hfpw, hfnov⟩ := extractFallbackKeyPoints_good t
        (MIN_KP - (placeLoop t resp.keyPhrases [] []).1.length) (placeLoop t resp.keyPhrases [] []).2
      constructor
      · intro kp hkp
        rcases List.mem_append.mp (List.mem_of_mem_take hkp) with hx | hx
        · exact hg kp hx
        · exact hfg kp hx
      · apply List.Pairwise.sublist (List.take_sublist _ _)
        rw [List.pairwise_append]
        exact ⟨hpw, hfpw, fun a ha b hb => hfnov b hb (spanOf a) (hmem a ha)⟩
    case isFalse =>
      constructor
      · intro kp hkp
        exact hg kp (List.mem_of_mem_take hkp)
      · exact List.Pairwise.sublist (List.take_sublist _ _) hpw

/-! ## Chunk-window transfer -/

theorem slice_slice (t : List Char) (off L s e : Nat) (he : e ≤ L) :
    slice (slice t off (off + L)) s e = slice t (off + s) (off + e) := by
  simp only [slice, List.drop_take, List.drop_drop, List.take_take]
  have h1 : min e (off + L - off) - s = off + e - (off + s) := by omega
  rw [h1]

theorem slice_length (t : List Char) (a b : Nat) :
    (slice t a b).length = min b t.length - a := by
  simp [slice]

theorem GoodKP_shift (t : List Char) (c : Chunk) (kp : KeyPoint)
    (hc : ChunkOK t c) (h : GoodKP c.text kp) :
    GoodKP t { kp with startPos := kp.startPos + c.startOffset,
                       endPos := kp.endPos + c.startOffset } := by
  obtain ⟨hct, hcb⟩ := hc
  obtain ⟨htxt, hend, hmin, hmax, htl⟩ := h
  refine ⟨?_, ?_, ?_, ?_, ?_⟩
  · show kp.text = jsTrim (slice t (kp.startPos + c.startOffset) (kp.endPos + c.startOffset))
    rw [htxt]
    have := slice_slice t c.startOffset c.text.length kp.startPos kp.endPos hend
    rw [hct]
    rw [Nat.add_comm kp.startPos c.startOffset, Nat.add_comm kp.endPos c.startOffset, ← this,
      ← hct]
  · show kp.endPos + c.startOffset ≤ t.length
    omega
  · show MIN_PHRASE_LEN ≤ kp.endPos + c.startOffset - (kp.startPos + c.startOffset)
    omega
  · show kp.endPos + c.startOffset - (kp.startPos + c.startOffset) ≤ MAX_PHRASE_LEN
    omega
  · exact htl

theorem chunkLoop_ok (t : List Char) (maxChars overlap : Nat) :
    ∀ fuel start, ∀ c ∈ chunkLoop t maxChars overlap fuel start, ChunkOK t c := by
  intro fuel
  induction fuel with
  | zero => intro start c hc; simp [chunkLoop] at hc
  | succ n ih =>
    intro start c hc
    simp only [chunkLoop] at hc
    split at hc
    case isFalse => simp at hc
    case isTrue hlt =>
      rw [jsLength_eq] at hlt
      have hcur : ChunkOK t ⟨slice t start (min (start + maxChars) (jsLength t)), start⟩ := by
        constructor
        · show slice t start (min (start + maxChars) (jsLength t)) =
            slice t start (start + (slice t start (min (start + maxChars) (jsLength t))).length)
        
          rw [slice_length, jsLength_eq]
          have : start + (min (min (start + maxChars) t.length) t.length - start) =
              min (start + maxChars) t.length := by omega
          rw [this]
        · show start + (slice t start (min (start + maxChars) (jsLength t))).length ≤ t.length
          rw [slice_length, jsLength_eq]
          omega
      split at hc
      case isTrue hstop =>
        rw [List.mem_singleton] at hc
        subst hc
        exact hcur
      case isFalse hstop =>
        rcases List.mem_cons.mp hc with hc | hc
        · subst hc
          exact hcur
        · exact ih _ c hc

theorem chunkTextWithOffsets_ok (t : List Char) (maxChars overlap : Nat) :
    ∀ c ∈ chunkTextWithOffsets t maxChars overlap, ChunkOK t c := by
  intro c hc
  simp only [chunkTextWithOffsets] at hc
  split at hc
  case isTrue =>
    rw [List.mem_singleton] at hc
    subst hc
    constructor
    · show t = slice t 0 (0 + t.length)
      simp [slice]
    · show 0 + t.length ≤ t.length
      omega
  case isFalse => exact chunkLoop_ok t maxChars overlap _ _ c hc

theorem chunkResultsLoop_good (oracle : Oracle) (lang : LanguageCode) (t : List Char) :
    ∀ chunks, (∀ c ∈ chunks, ChunkOK t c) →
      ∀ r ∈ chunkResultsLoop oracle lang chunks, ∀ kp ∈ r.keyPoints, GoodKP t kp := by
  intro chunks
  induction chunks with
  | nil => intro _ r hr; simp [chunkResultsLoop] at hr
  | cons c rest ih =>
    intro hok r hr
    simp only [chunkResultsLoop] at hr
    split at hr
    case h_1 res hres =>
      rcases List.mem_cons.mp hr with hr | hr
      · subst hr
        intro kp hkp
        simp only at hkp
        rcases List.mem_map.mp hkp with ⟨kp0, hkp0, hsh⟩
        subst hsh
        simp only [generateSingleSummary] at hres
        split at hres
        case h_1 => exact Except.noConfusion hres
        case h_2 resp horacle =>
          have hg := (processSummaryResponse_good resp c.text res hres).1 kp0 hkp0
          exact GoodKP_shift t c kp0 (hok c (List.mem_cons_self c rest)) hg
      · exact ih (fun x hx => hok x (List.mem_cons_of_mem _ hx)) r hr
    case h_2 => exact ih (fun x hx => hok x (List.mem_cons_of_mem _ hx)) r hr

theorem mergeChunkSummaries_mem {results : List SummaryResult} {lang : EffectiveLang}
    {kp : KeyPoint} (h : kp ∈ (mergeChunkSummaries results lang).keyPoints) :
    ∃ r ∈ results, kp ∈ r.keyPoints := by
  simp only [mergeChunkSummaries] at h
  have h1 := deduplicateKeyPoints_mem (List.mem_of_mem_take h)
  rcases List.mem_flatten.mp h1 with ⟨l, hl, hkp⟩
  rcases List.mem_map.mp hl with ⟨r, hr, hlr⟩
  subst hlr
  exact ⟨r, hr, hkp⟩

theorem generateChunkedSummary_good (oracle : Oracle) (pl : LanguageCode)
    (el : EffectiveLang) (t : List Char) :
    ∀ kp ∈ (generateChunkedSummary oracle pl el t).keyPoints, GoodKP t kp := by
  intro kp hkp
  simp only [generateChunkedSummary] at hkp
  split at hkp
  case isTrue => exact (extractFallbackKeyPoints_good t MAX_KP []).1 kp hkp
  case isFalse =>
    obtain ⟨r, hr, hkpr⟩ := mergeChunkSummaries_mem hkp
    exact chunkResultsLoop_good oracle pl t _
      (chunkTextWithOffsets_ok t _ _) r hr kp hkpr

theorem generateSummary_good (oracle : Oracle) (language t : List Char) (r : SummaryResult)
    (h : generateSummary oracle language t = .ok r) :
    ∀ kp ∈ r.keyPoints, GoodKP t kp := by
  simp only [generateSummary] at h
  split at h
  · exact Except.noConfusion h
  · split at h
    case h_1 r0 hat =>
      rw [Except.ok.injEq] at h
      subst h
      split at hat
      case isTrue =>
        rw [Except.ok.injEq] at hat
        subst hat
        exact generateChunkedSummary_good oracle _ _ t
      case isFalse =>
        simp only [generateSingleSummary] at hat
        split at hat
        case h_1 => exact Except.noConfusion hat
        case h_2 resp horacle => exact (processSummaryResponse_good resp t r0 hat).1
    case h_2 e hat =>
      rw [Except.ok.injEq] at h
      subst h
      intro kp hkp
      exact (extractFallbackKeyPoints_good t MAX_KP []).1 kp hkp

/-! ## Sortedness of dedup-based outputs -/

theorem sortedByStartB_of_pairwise {l : List KeyPoint}
    (h : List.Pairwise (fun a b => a.startPos ≤ b.startPos) l) : sortedByStartB l = true := by
  induction l with
  | nil => rfl
  | cons a rest ih =>
    cases rest with
    | nil => rfl
    | cons b rs =>
      rw [List.pairwise_cons] at h
      simp only [sortedByStartB, Bool.and_eq_true, decide_eq_true_eq]
      exact ⟨h.1 b (List.mem_cons_self b rs), ih h.2⟩

theorem extractFallbackKeyPoints_sorted (t : List Char) (mp : Nat) (base : List Span) :
    List.Pairwise (fun a b => a.startPos ≤ b.startPos) (extractFallbackKeyPoints t mp base) :=
  List.Pairwise.sublist (List.take_sublist _ _) (deduplicateKeyPoints_sorted _)

theorem mergeChunkSummaries_sorted (results : List SummaryResult) (lang : EffectiveLang) :
    List.Pairwise (fun a b => a.startPos ≤ b.startPos)
      (mergeChunkSummaries results lang).keyPoints :=
  List.Pairwise.sublist (List.take_sublist _ _) (deduplicateKeyPoints_sorted _)

/-! ## Stage-1 stopping bound -/

theorem tryAdd_fst (t : List Char) (st : FBState) (a b : Nat) (imp : Importance)
    (cat : Category) :
    ((tryAdd t st a b imp cat).2 = false ∧ (tryAdd t st a b imp cat).1 = st) ∨
    ((tryAdd t st a b imp cat).2 = true ∧
      (tryAdd t st a b imp cat).1.keyPoints.length = st.keyPoints.length + 1) := by
  simp only [tryAdd]
  split
  · exact Or.inl ⟨rfl, rfl⟩
  · split
    · refine Or.inr ⟨rfl, ?_⟩
      simp
    · exact Or.inl ⟨rfl, rfl⟩

theorem stage1Loop_len (t : List Char) (mp : Nat) :
    ∀ items (st : FBState),
      (stage1Loop t mp items st).keyPoints.length ≤
        max (st.keyPoints.length + 1) (min MIN_KP mp) := by
  intro items
  induction items with
  | nil =>
    intro st
    simp only [stage1Loop]
    omega
  | cons s rest ih =>
    intro st
    simp only [stage1Loop]
    split
    case isFalse => exact ih st
    case isTrue =>
      split
      case h_2 => exact ih st
      case h_1 idx hidx =>
        rcases tryAdd_fst t st idx (idx + jsLength s) .high .fact with ⟨h2, h1⟩ | ⟨h2, h1⟩
        · rw [h2]
          simp only [Bool.false_and, if_false]
          rw [h1]
          exact ih st
        · rw [h2]
          simp only [Bool.true_and]
          split
          case isTrue hge =>
            omega
          case isFalse hlt =>
            have hx := ih (tryAdd t st idx (idx + jsLength s) .high .fact).1
            simp only [decide_eq_true_eq] at hlt
            omega

/-! ## Claim theorems: C2, C6, C1 (amended), C7, C9 -/

/-- C2: for every `SummaryResult` successfully returned by `generateSummary`
(single-pass, chunked, or fallback path), every emitted key point satisfies
substring fidelity: slicing the source text at `[startPos, endPos)` and
trimming whitespace yields exactly the key point's `text`. -/
theorem c2_substring_fidelity (oracle : Oracle) (language t : List Char) (r : SummaryResult)
    (h : generateSummary oracle language t = .ok r) :
    ∀ kp ∈ r.keyPoints, kp.text = jsTrim (slice t kp.startPos kp.endPos) :=
  fun kp hkp => (generateSummary_good oracle language t r h kp hkp).1

set_option maxRecDepth 200000 in
theorem c2_substring_fidelity_witness :
    generateSummary oracle7 ("en".toList) t7 = .ok r7 ∧
    (∀ kp ∈ r7.keyPoints, kp.text = jsTrim (slice t7 kp.startPos kp.endPos)) :=
  ⟨by rfl, c2_substring_fidelity oracle7 ("en".toList) t7 r7 (by rfl)⟩

/-- C6: every emitted key point has span length between `MIN_PHRASE_LEN` and
`MAX_PHRASE_LEN`, and trimmed text length at least `MIN_PHRASE_LEN`. (This is
stronger than the claim: the upper bound holds with no slack at all, because
`trimSoft` strips the trailing closing punctuation that the clamp cut kept.) -/
theorem c6_length_bounds (oracle : Oracle) (language t : List Char) (r : SummaryResult)
    (h : generateSummary oracle language t = .ok r) :
    ∀ kp ∈ r.keyPoints,
      MIN_PHRASE_LEN ≤ kp.endPos - kp.startPos ∧
      kp.endPos - kp.startPos ≤ MAX_PHRASE_LEN ∧
      MIN_PHRASE_LEN ≤ kp.text.length := by
  intro kp hkp
  obtain ⟨_, _, h1, h2, h3⟩ := generateSummary_good oracle language t r h kp hkp
  exact ⟨h1, h2, h3⟩

set_option maxRecDepth 200000 in
theorem c6_length_bounds_witness :
    generateSummary oracle7 ("en".toList) t7 = .ok r7 ∧
    (∀ kp ∈ r7.keyPoints,
      MIN_PHRASE_LEN ≤ kp.endPos - kp.startPos ∧
      kp.endPos - kp.startPos ≤ MAX_PHRASE_LEN ∧
      MIN_PHRASE_LEN ≤ kp.text.length) :=
  ⟨by rfl, c6_length_bounds oracle7 ("en".toList) t7 r7 (by rfl)⟩

set_option maxRecDepth 200000 in
/-- C1 (counterexample): the chunked-merge path does not restore the
non-overlap invariant.  Two faithful overlapping windows over `cxText` are
each processed by the single-pass pipeline into pairwise non-overlapping key
points, but after the per-window results are translated by their start
offsets and merged, the result keeps the overlapping spans `[104, 124)` (the
full `q` run as seen by window 1) and `[111, 124)` (the same run as seen from
window 2's origin): `deduplicateKeyPoints` drops only exact
`(text, startPos)` duplicates and never re-checks span overlap. -/
theorem c1_counterexample :
    cxChunk1.text =
      slice cxText cxChunk1.startOffset (cxChunk1.startOffset + cxChunk1.text.length) ∧
    cxChunk2.text =
      slice cxText cxChunk2.startOffset (cxChunk2.startOffset + cxChunk2.text.length) ∧
    (chunkResultsLoop cxOracle .en [cxChunk1, cxChunk2]).all
      (fun r => spansPairwiseFree r.keyPoints) = true ∧
    spansPairwiseFree
      (mergeChunkSummaries (chunkResultsLoop cxOracle .en [cxChunk1, cxChunk2])
        .en).keyPoints = false := by
  refine ⟨by rfl, by rfl, by rfl, by rfl⟩

/-- C1 (amended): on the single-pass and fallback paths — i.e. whenever the
text is at most `MAX_TOKENS * CHARS_PER_TOKEN` characters, so chunking is not
taken — the key points of the returned summary are pairwise non-overlapping.
(The chunked path does not restore this invariant; see the counterexample.) -/
theorem c1_nonoverlap_amended (oracle : Oracle) (language t : List Char) (r : SummaryResult)
    (hlen : jsLength t ≤ MAX_TOKENS * CHARS_PER_TOKEN)
    (h : generateSummary oracle language t = .ok r) :
    spansPairwiseFree r.keyPoints = true := by
  rw [spansPairwiseFree_iff]
  simp only [generateSummary] at h
  split at h
  · exact Except.noConfusion h
  · split at h
    case h_1 r0 hat =>
      rw [Except.ok.injEq] at h
      subst h
      split at hat
      case isTrue hbig =>
        exfalso
        simp only [MAX_TOKENS, CHARS_PER_TOKEN] at hbig hlen
        omega
      case isFalse =>
        simp only [generateSingleSummary] at hat
        split at hat
        case h_1 => exact Except.noConfusion hat
        case h_2 resp horacle => exact (processSummaryResponse_good resp t r0 hat).2
    case h_2 e hat =>
      rw [Except.ok.injEq] at h
      subst h
      exact (extractFallbackKeyPoints_good t MAX_KP []).2.1

set_option maxRecDepth 200000 in
theorem c1_nonoverlap_amended_witness :
    spansPairwiseFree r7.keyPoints = true :=
  c1_nonoverlap_amended oracle7 ("en".toList) t7 r7 (by decide) (by rfl)

set_option maxRecDepth 200000 in
/-- C7 (counterexample): the single-pass path does not sort. With the
collaborator returning the eight anchored sentences of `t7` in reverse text
order, `generateSummary` succeeds but its key points are not in ascending
`startPos` order. -/
theorem c7_counterexample :
    (generateSummary oracle7 ("en".toList) t7).map (fun r => sortedByStartB r.keyPoints) =
      .ok false := by rfl

/-- C7 (amended): the paths that run `deduplicateKeyPoints` — the chunked
merge and the fallback extractor — do return key points sorted by ascending
`startPos`; the single-pass path keeps the collaborator's phrase order. -/
theorem c7_sorted_amended (results : List SummaryResult) (lang : EffectiveLang)
    (t : List Char) (mp : Nat) (base : List Span) :
    sortedByStartB (mergeChunkSummaries results lang).keyPoints = true ∧
    sortedByStartB (extractFallbackKeyPoints t mp base) = true :=
  ⟨sortedByStartB_of_pairwise (mergeChunkSummaries_sorted results lang),
   sortedByStartB_of_pairwise (extractFallbackKeyPoints_sorted t mp base)⟩

set_option maxRecDepth 200000 in
set_option maxHeartbeats 2000000 in
/-- C9 (counterexample): `t9` splits into fifteen sentence-like units, all of
length within `[30, 180]` and pairwise placeable, yet
`extractFallbackKeyPoints t9 15 []` returns only 8 key points: stage 1 stops
at `min MIN_KP maxPoints = 8`, not at `maxPoints = 15`. -/
theorem c9_counterexample :
    (splitIntoSentences t9).length = 15 ∧
    (splitIntoSentences t9).all
      (fun s => decide (30 ≤ jsLength s) && decide (jsLength s ≤ 180)) = true ∧
    (extractFallbackKeyPoints t9 15 []).length = 8 := by
  refine ⟨by rfl, by rfl, by rfl⟩

/-- C9 (amended): stage 1 of the fallback extractor stops once
`min MIN_KP maxPoints` key points have been collected: starting from an empty
state it never contributes more than `max 1 (min MIN_KP maxPoints)` points,
regardless of how many sentence-like units qualify. -/
theorem c9_stage1_amended (t : List Char) (mp : Nat) (base : List Span)
    (items : List (List Char)) :
    (stage1Loop t mp items ⟨[], base⟩).keyPoints.length ≤ max 1 (min MIN_KP mp) := by
  have hx := stage1Loop_len t mp items ⟨[], base⟩
  simpa using hx

/-! ## C8: chunk window geometry -/

theorem chunkLoop_head (t : List Char) (maxChars overlap : Nat) :
    ∀ fuel start c, (chunkLoop t maxChars overlap fuel start).head? = some c →
      c.startOffset = start := by
  intro fuel
  cases fuel with
  | zero => intro start c hc; simp [chunkLoop] at hc
  | succ n =>
    intro start c hc
    simp only [chunkLoop] at hc
    split at hc
    case isFalse => simp at hc
    case isTrue hlt =>
      split at hc
      case isTrue =>
        rw [List.head?_cons, Option.some_inj] at hc
        rw [← hc]
      case isFalse =>
        rw [List.head?_cons, Option.some_inj] at hc
        rw [← hc]

theorem chunkLoop_chain (t : List Char) (maxChars overlap : Nat)
    (hov : overlap < maxChars) :
    ∀ fuel start, List.Chain'
      (fun a b => b.startOffset + overlap = a.startOffset + a.text.length)
      (chunkLoop t maxChars overlap fuel start) := by
  intro fuel
  induction fuel with
  | zero => intro start; simp [chunkLoop]
  | succ n ih =>
    intro start
    simp only [chunkLoop]
    split
    case isFalse => simp
    case isTrue hlt =>
      split
      case isTrue hstop => simp
      case isFalse hstop =>
        rw [List.chain'_cons']
        refine ⟨?_, ih _⟩
        intro b hb
        have hbo := chunkLoop_head t maxChars overlap n _ b hb
        rw [hbo, slice_length]
        simp only [jsLength_eq] at hlt hstop ⊢
        omega

theorem chunkLoop_cover (t : List Char) (maxChars overlap : Nat)
    (hov : overlap < maxChars) :
    ∀ fuel start, t.length ≤ start + fuel * (maxChars - overlap) →
      ∀ i, start ≤ i → i < t.length →
        ∃ c ∈ chunkLoop t maxChars overlap fuel start,
          c.startOffset ≤ i ∧ i < c.startOffset + c.text.length := by
  intro fuel
  induction fuel with
  | zero =>
    intro start hf i hsi hi
    simp only [Nat.zero_mul, Nat.add_zero] at hf
    omega
  | succ n ih =>
    intro start hf i hsi hi
    simp only [chunkLoop]
    split
    case isFalse hlt =>
      rw [jsLength_eq] at hlt
      omega
    case isTrue hlt =>
      rw [jsLength_eq] at hlt
      split
      case isTrue hstop =>
        rw [jsLength_eq] at hstop
        refine ⟨_, List.mem_singleton.mpr rfl, hsi, ?_⟩
        show i < start + (slice t start (min (start + maxChars) (jsLength t))).length
        rw [slice_length, jsLength_eq]
        omega
      case isFalse hstop =>
        rw [jsLength_eq] at hstop
        by_cases hin : i < min (start + maxChars) t.length
        · refine ⟨_, List.mem_cons_self _ _, hsi, ?_⟩
          show i < start + (slice t start (min (start + maxChars) (jsLength t))).length
          rw [slice_length, jsLength_eq]
          omega
        · rw [Nat.succ_mul] at hf
          have hrec := ih (min (start + maxChars) (jsLength t) - overlap)
            (by rw [jsLength_eq]; omega) i (by rw [jsLength_eq]; omega) hi
          obtain ⟨c, hc, h1, h2⟩ := hrec
          exact ⟨c, List.mem_cons_of_mem _ hc, h1, h2⟩

theorem chunkResultsLoop_shape (oracle : Oracle) (lang : LanguageCode) :
    ∀ chunks r, r ∈ chunkResultsLoop oracle lang chunks →
      ∃ c ∈ chunks, ∃ res, generateSingleSummary oracle lang c.text = .ok res ∧
        r.summary = res.summary ∧
        r.keyPoints = res.keyPoints.map (fun kp =>
          { kp with startPos := kp.startPos + c.startOffset,
                    endPos := kp.endPos + c.startOffset }) := by
  intro chunks
  induction chunks with
  | nil => intro r hr; simp [chunkResultsLoop] at hr
  | cons c rest ih =>
    intro r hr
    simp only [chunkResultsLoop] at hr
    split at hr
    case h_1 res hres =>
      rcases List.mem_cons.mp hr with hr | hr
      · subst hr
        exact ⟨c, List.mem_cons_self c rest, res, hres, rfl, rfl⟩
      · obtain ⟨c2, hc2, res2, h1, h2, h3⟩ := ih r hr
        exact ⟨c2, List.mem_cons_of_mem _ hc2, res2, h1, h2, h3⟩
    case h_2 =>
      obtain ⟨c2, hc2, res2, h1, h2, h3⟩ := ih r hr
      exact ⟨c2, List.mem_cons_of_mem _ hc2, res2, h1, h2, h3⟩

/-- C8: chunk windows are faithful slices of the source at their start
offsets, consecutive windows overlap by exactly `overlap` characters, the
windows jointly cover the text, and every per-chunk result re-emits the
chunk's key points translated by the window's start offset. -/
theorem c8_chunk_offsets (oracle : Oracle) (lang : LanguageCode) (t : List Char)
    (maxChars overlap : Nat) (hov : overlap < maxChars) :
    (∀ c ∈ chunkTextWithOffsets t maxChars overlap,
      c.text = slice t c.startOffset (c.startOffset + c.text.length) ∧
      c.startOffset + c.text.length ≤ t.length) ∧
    List.Chain' (fun a b => b.startOffset + overlap = a.startOffset + a.text.length)
      (chunkTextWithOffsets t maxChars overlap) ∧
    (∀ i, i < t.length → ∃ c ∈ chunkTextWithOffsets t maxChars overlap,
      c.startOffset ≤ i ∧ i < c.startOffset + c.text.length) ∧
    (∀ r ∈ chunkResultsLoop oracle lang (chunkTextWithOffsets t maxChars overlap),
      ∃ c ∈ chunkTextWithOffsets t maxChars overlap, ∃ res,
        generateSingleSummary oracle lang c.text = .ok res ∧
        r.summary = res.summary ∧
        r.keyPoints = res.keyPoints.map (fun kp =>
          { kp with startPos := kp.startPos + c.startOffset,
                    endPos := kp.endPos + c.startOffset })) := by
  refine ⟨chunkTextWithOffsets_ok t maxChars overlap, ?_, ?_,
    fun r hr => chunkResultsLoop_shape oracle lang _ r hr⟩
  · simp only [chunkTextWithOffsets]
    split
    · simp
    · exact chunkLoop_chain t maxChars overlap hov _ _
  · intro i hi
    simp only [chunkTextWithOffsets]
    split
    case isTrue hshort =>
      exact ⟨⟨t, 0⟩, List.mem_singleton.mpr rfl, Nat.zero_le i, by simpa using hi⟩
    case isFalse hlong =>
      apply chunkLoop_cover t maxChars overlap hov (jsLength t + 1) 0 ?_ i (Nat.zero_le i) hi
      have hd : 1 ≤ maxChars - overlap := by omega
      have := Nat.mul_le_mul_left (jsLength t + 1) hd
      rw [jsLength_eq] at this ⊢
      omega

theorem c8_chunk_offsets_witness :
    (4 : Nat) < 12 ∧
    (∀ c ∈ chunkTextWithOffsets (("abcdefghijklmnopqrstuvwxyz1234".toList)) 12 4,
      c.text = slice (("abcdefghijklmnopqrstuvwxyz1234".toList)) c.startOffset
        (c.startOffset + c.text.length) ∧
      c.startOffset + c.text.length ≤ (("abcdefghijklmnopqrstuvwxyz1234".toList)).length) ∧
    List.Chain' (fun a b => b.startOffset + 4 = a.startOffset + a.text.length)
      (chunkTextWithOffsets (("abcdefghijklmnopqrstuvwxyz1234".toList)) 12 4) :=
  ⟨by decide,
   ((c8_chunk_offsets (fun _ _ => .error []) .en
      (("abcdefghijklmnopqrstuvwxyz1234".toList)) 12 4 (by decide)).1),
   ((c8_chunk_offsets (fun _ _ => .error []) .en
      (("abcdefghijklmnopqrstuvwxyz1234".toList)) 12 4 (by decide)).2.1)⟩

end MemoCards
